import Mathlib

/-!
# Verification of the external-allocator garbage collector

This development gives a shallow embedding of the conservative mark-sweep
garbage collector that sits on top of an external allocator (the
`gc.extalloc` tracing variant in `src/runtime/gc_extalloc.go`, with the
`gc.custom` and `gc.extalloc_leaking` variants modelled where claims refer
to them), and proves or refutes the specified properties of `sweep`,
`mark`/`searchAllocations`, `prepareGC`/`sortAllocations`, `finishMarking`,
`alloc`, `free`, `adjustHeapUsageLimit` and `ReadMemStats`.

Machine integers are modelled as `Nat` with explicit reductions modulo
`2 ^ 32` (the wasm32 `uintptr`) and `2 ^ 64` (`uint64`) at the points where
the Go code performs wrapping arithmetic.  The intrusive scan queue that Go
threads through `next *heapAllocation` pointers is represented with stable
indices into the allocation registry: `referenceScanQueue : Option Nat` is
the index of the head record and each record's `next : Option Nat` is the
index of its successor (the registry does not change shape during a
collection cycle, so indices are stable).
-/

namespace GCExtalloc

/-- `2 ^ 32`, one more than the largest `uintptr` value on the wasm32 target. -/
def U32 : Nat := 2 ^ 32

/-- `2 ^ 64`, one more than the largest `uint64` value. -/
def U64 : Nat := 2 ^ 64

/-- `unsafe.Sizeof(unsafe.Pointer(nil))` on wasm32. -/
def ptrSize : Nat := 4

/-- `unsafe.Alignof(unsafe.Pointer(nil))` on wasm32. -/
def ptrAlignment : Nat := 4

/-- The wasm page size, 64 KiB. -/
def wasmPageSize : Nat := 65536

/-- Modelled from the spec: the runtime utility `align(x)` (defined outside
the collector sources) rounds `x` up to the target's pointer alignment. -/
def align (x : Nat) : Nat := ((x + (ptrAlignment - 1)) / ptrAlignment) * ptrAlignment

/-- The fixed address of the one-byte global `zeroSizedAlloc`; zero-sized
allocations return a pointer to this byte.  The concrete value is an
arbitrary fixed nonzero address: only its fixedness matters. -/
def zeroSizedAlloc : Nat := 1

/-- `unsafe.Sizeof(heapAllocation{})` on wasm32:
two `uintptr` fields, a `bool` and a pointer, padded to 16 bytes. -/
def heapAllocationSize : Nat := 16

/-- One record of the allocation registry, `heapAllocation` in
`gc_extalloc.go`.  `next` holds the registry index of the successor in the
intrusive scan queue (`none` plays the role of the nil pointer). -/
structure heapAllocation where
  start : Nat
  end_ : Nat
  marked : Bool
  next : Option Nat
  deriving Repr, DecidableEq

instance : Inhabited heapAllocation := ⟨⟨0, 0, false, none⟩⟩

/-- `uint64(curAlloc.end - curAlloc.start)`: wrapping `uintptr` subtraction
followed by zero extension. -/
def allocSize (a : heapAllocation) : Nat := (a.end_ + U32 - a.start % U32) % U32

/-- The process-wide collector state of the tracing variant.
`allocCap` and `allocPtr` mirror the capacity and backing-buffer address of
the `allocations` slice header (`allocPtr = 0` is the nil pointer). -/
structure GCState where
  gcInProgress : Bool
  gcMallocs : Nat
  gcFrees : Nat
  gcTotalAlloc : Nat
  heapUsageLimit : Nat
  allocations : List heapAllocation
  allocCap : Nat
  allocPtr : Nat
  referenceScanQueue : Option Nat
  deriving Repr, DecidableEq

/-- The boot-time state: counters zero, empty registry, and
`heapUsageLimit = 2 * wasmPageSize * unsafe.Sizeof(unsafe.Pointer(nil))`. -/
def initialState : GCState :=
  { gcInProgress := false
    gcMallocs := 0
    gcFrees := 0
    gcTotalAlloc := 0
    heapUsageLimit := 2 * wasmPageSize * ptrSize
    allocations := []
    allocCap := 0
    allocPtr := 0
    referenceScanQueue := none }

/-! ## sweep (`gc_extalloc.go`, `sweep`)

The Go loop walks the registry in index order keeping a write cursor `j`;
unmarked records are freed (`free(start)`, which bumps `gcFrees` and calls
`extfree`), marked records are compacted to position `j` and their size is
added to the recomputed `gcTotalAlloc`.  Since `j ≤ i` throughout, the loop
never reads an overwritten slot, so it is equivalent to the following
single pass with accumulators.  The second component of the result is the
sequence of addresses passed to `extfree`, in call order. -/

def sweepLoop : List heapAllocation → List heapAllocation → List Nat → Nat → Nat →
    List heapAllocation × List Nat × Nat × Nat
  | [], kept, freed, total, frees => (kept.reverse, freed.reverse, total, frees)
  | a :: rest, kept, freed, total, frees =>
    if !a.marked then
      sweepLoop rest kept (a.start :: freed) total ((frees + 1) % U64)
    else
      sweepLoop rest (a :: kept) freed ((total + allocSize a) % U64) frees

def sweep (st : GCState) : GCState × List Nat :=
  let r := sweepLoop st.allocations [] [] 0 st.gcFrees
  ({ st with allocations := r.1, gcTotalAlloc := r.2.2.1, gcFrees := r.2.2.2 }, r.2.1)

/-! ## searchAllocations and mark (`gc_extalloc.go`) -/

/-- The binary-search loop of `searchAllocations`: the record index whose
inclusive `[start, end]` interval contains `addr`, searched in `[low, high)`.
The loop halves `high - low` at every step, so it is written by structural
recursion on a `fuel` argument bounding `high - low`; `searchLoop_complete`
below shows a fuel of at least `high - low` suffices to find any containing
record, so the fuel is not an extra source of `none` results. -/
def searchLoop (allocs : List heapAllocation) (addr : Nat) :
    (fuel low high : Nat) → Option Nat
  | 0, _, _ => none
  | fuel + 1, low, high =>
    if low < high then
      let mid := low + (high - low) / 2
      let a := allocs.getD mid default
      if addr < a.start then
        searchLoop allocs addr fuel low mid
      else if a.end_ < addr then
        searchLoop allocs addr fuel (mid + 1) high
      else
        some mid
    else
      none

def searchAllocations (allocs : List heapAllocation) (addr : Nat) : Option Nat :=
  searchLoop allocs addr allocs.length 0 allocs.length

/-- Abbreviated registry indexing with the default record as fallback. -/
def gi (l : List heapAllocation) (i : Nat) : heapAllocation := l.getD i default

/-- The effect of `mark` on a found, unmarked record: set its `marked` flag,
link its `next` to the current queue head and make it the new head. -/
def pushAlloc (st : GCState) (i : Nat) : GCState :=
  { st with
    allocations := st.allocations.set i
      { (gi st.allocations i) with
        marked := true
        next := st.referenceScanQueue }
    referenceScanQueue := some i }

/-- `mark(addr)`: returns whether `addr` transitioned a registry record from
unmarked to marked, together with the updated state. -/
def mark (st : GCState) (addr : Nat) : Bool × GCState :=
  if st.allocations.length = 0 then (false, st)
  else if addr < (gi st.allocations 0).start ∨
      (gi st.allocations (st.allocations.length - 1)).end_ < addr then
    (false, st)
  else
    match searchAllocations st.allocations addr with
    | none => (false, st)
    | some i =>
      if !(gi st.allocations i).marked then (true, pushAlloc st i)
      else (false, st)

/-! ## Correctness of sweep -/

/-- The running `gcTotalAlloc` recomputation performed by the sweep loop. -/
def sweepTotal : List heapAllocation → Nat → Nat
  | [], t => t
  | a :: rest, t => sweepTotal rest (if !a.marked then t else (t + allocSize a) % U64)

/-- The running `gcFrees` update performed by the sweep loop. -/
def sweepFrees : List heapAllocation → Nat → Nat
  | [], f => f
  | a :: rest, f => sweepFrees rest (if !a.marked then (f + 1) % U64 else f)

theorem sweepLoop_eq (l : List heapAllocation) :
    ∀ kept freed total frees,
      sweepLoop l kept freed total frees =
        (kept.reverse ++ l.filter (fun a => a.marked),
          freed.reverse ++ (l.filter (fun a => !a.marked)).map (fun a => a.start),
          sweepTotal l total, sweepFrees l frees) := by
  induction l with
  | nil => intro kept freed total frees; simp [sweepLoop, sweepTotal, sweepFrees]
  | cons a rest ih =>
    intro kept freed total frees
    by_cases hm : a.marked
    · simp [sweepLoop, sweepTotal, sweepFrees, hm, ih]
    · simp [sweepLoop, sweepTotal, sweepFrees, hm, ih]

theorem sweepTotal_eq_mod (l : List heapAllocation) :
    ∀ t, t < U64 →
      sweepTotal l t = (t + ((l.filter (fun a => a.marked)).map allocSize).sum) % U64 := by
  induction l with
  | nil => intro t ht; simp [sweepTotal, Nat.mod_eq_of_lt ht]
  | cons a rest ih =>
    intro t ht
    by_cases hm : a.marked
    · have hstep : sweepTotal (a :: rest) t = sweepTotal rest ((t + allocSize a) % U64) := by
        simp [sweepTotal, hm]
      rw [hstep, ih _ (Nat.mod_lt _ (by norm_num [U64]))]
      simp [hm, Nat.add_mod_mod, Nat.mod_add_mod, Nat.add_assoc]
    · have hstep : sweepTotal (a :: rest) t = sweepTotal rest t := by
        simp [sweepTotal, hm]
      rw [hstep, ih _ ht]
      simp [hm]

theorem allocSize_eq (a : heapAllocation) (h1 : a.start ≤ a.end_) (h2 : a.end_ < U32) :
    allocSize a = a.end_ - a.start := by
  have hs : a.start % U32 = a.start := Nat.mod_eq_of_lt (Nat.lt_of_le_of_lt h1 h2)
  unfold allocSize
  rw [hs]
  have : a.end_ + U32 - a.start = (a.end_ - a.start) + U32 := by omega
  rw [this, Nat.add_mod_right]
  exact Nat.mod_eq_of_lt (by omega)

/-- C1: sweep frees exactly the unmarked records (one `extfree` per record, on
its `start` address, in registry order), keeps the marked ones in order, and
recomputes `gcTotalAlloc` as the sum of the retained sizes. -/
theorem sweep_correct (st : GCState)
    (hwf : ∀ a ∈ st.allocations, a.start ≤ a.end_ ∧ a.end_ < U32)
    (hsum : ((st.allocations.filter (fun a => a.marked)).map
        (fun a => a.end_ - a.start)).sum < U64) :
    (sweep st).1.allocations = st.allocations.filter (fun a => a.marked) ∧
    (sweep st).2 = (st.allocations.filter (fun a => !a.marked)).map (fun a => a.start) ∧
    (sweep st).1.gcTotalAlloc =
      ((st.allocations.filter (fun a => a.marked)).map (fun a => a.end_ - a.start)).sum ∧
    (sweep st).1.allocations.length = (st.allocations.filter (fun a => a.marked)).length := by
  have hmap : (st.allocations.filter (fun a => a.marked)).map allocSize =
      (st.allocations.filter (fun a => a.marked)).map (fun a => a.end_ - a.start) := by
    apply List.map_congr_left
    intro a ha
    have := hwf a (List.mem_of_mem_filter ha)
    exact allocSize_eq a this.1 this.2
  have hloop := sweepLoop_eq st.allocations [] [] 0 st.gcFrees
  have htotal := sweepTotal_eq_mod st.allocations 0 (by norm_num [U64])
  rw [hmap] at htotal
  constructor
  · simp [sweep, hloop]
  constructor
  · simp [sweep, hloop]
  constructor
  · simp only [sweep, hloop]
    simpa [Nat.mod_eq_of_lt hsum] using htotal
  · simp [sweep, hloop]

theorem sweep_correct_witness :
    (∀ a ∈ ({ initialState with
        allocations := [⟨100, 120, true, none⟩, ⟨200, 230, false, none⟩] } :
          GCState).allocations, a.start ≤ a.end_ ∧ a.end_ < U32) ∧
    (sweep { initialState with
        allocations := [⟨100, 120, true, none⟩, ⟨200, 230, false, none⟩] }).2 = [200] := by
  refine ⟨by decide, ?_⟩
  have h := sweep_correct
    { initialState with
        allocations := [⟨100, 120, true, none⟩, ⟨200, 230, false, none⟩] }
    (by decide) (by norm_num [U64])
  rw [h.2.1]
  decide

/-! ## Correctness of searchAllocations and mark -/

/-- Well-formedness used by the mark engine: every record satisfies
`start ≤ end`, and the registry is sorted by `start` with pairwise disjoint
inclusive address ranges (for `i < j`, record `i` ends strictly before
record `j` starts). -/
def RegistryOk (l : List heapAllocation) : Prop :=
  (∀ a ∈ l, a.start ≤ a.end_) ∧ l.Pairwise (fun a b => a.end_ < b.start)

theorem RegistryOk.lt_of_lt {l : List heapAllocation} (h : RegistryOk l)
    {i j : Nat} (hij : i < j) (hj : j < l.length) : (gi l i).end_ < (gi l j).start := by
  have hi : i < l.length := Nat.lt_trans hij hj
  have := List.pairwise_iff_getElem.mp h.2 i j hi hj hij
  unfold gi
  rw [List.getD_eq_getElem _ _ hi, List.getD_eq_getElem _ _ hj]
  exact this

theorem RegistryOk.start_le_end {l : List heapAllocation} (h : RegistryOk l)
    {i : Nat} (hi : i < l.length) : (gi l i).start ≤ (gi l i).end_ := by
  unfold gi
  rw [List.getD_eq_getElem _ _ hi]
  exact h.1 _ (List.getElem_mem _)

/-- A record index containing `addr` in its inclusive interval. -/
def containsAddr (l : List heapAllocation) (i addr : Nat) : Prop :=
  (gi l i).start ≤ addr ∧ addr ≤ (gi l i).end_

theorem searchLoop_sound (allocs : List heapAllocation) (addr : Nat) :
    ∀ fuel low high i, searchLoop allocs addr fuel low high = some i →
      low ≤ i ∧ i < high ∧ containsAddr allocs i addr := by
  intro fuel
  induction fuel with
  | zero =>
    intro low high i hsome
    exact absurd hsome (by simp [searchLoop])
  | succ n ih =>
    intro low high i hsome
    rw [searchLoop] at hsome
    by_cases hlh : low < high
    · rw [if_pos hlh] at hsome
      simp only [] at hsome
      set mid := low + (high - low) / 2 with hmid
      by_cases h1 : addr < (allocs.getD mid default).start
      · rw [if_pos h1] at hsome
        have := ih low mid i hsome
        exact ⟨this.1, by omega, this.2.2⟩
      · rw [if_neg h1] at hsome
        by_cases h2 : (allocs.getD mid default).end_ < addr
        · rw [if_pos h2] at hsome
          have := ih (mid + 1) high i hsome
          exact ⟨by omega, this.2.1, this.2.2⟩
        · rw [if_neg h2] at hsome
          have hi : i = mid := by simpa using hsome.symm
          subst hi
          have h1' : ¬ addr < (gi allocs mid).start := h1
          have h2' : ¬ (gi allocs mid).end_ < addr := h2
          exact ⟨by omega, by omega, by omega, by omega⟩
    · rw [if_neg hlh] at hsome
      exact absurd hsome (by simp)

theorem searchLoop_complete (allocs : List heapAllocation) (addr : Nat)
    (hok : RegistryOk allocs) :
    ∀ fuel low high, high - low ≤ fuel → high ≤ allocs.length →
      (∃ j, low ≤ j ∧ j < high ∧ containsAddr allocs j addr) →
      (searchLoop allocs addr fuel low high).isSome := by
  intro fuel
  induction fuel with
  | zero =>
    intro low high hle hhigh hj
    obtain ⟨j, hj1, hj2, _⟩ := hj
    omega
  | succ n ih =>
    intro low high hle hhigh hj
    obtain ⟨j, hj1, hj2, hjc⟩ := hj
    have hlh : low < high := by omega
    rw [searchLoop, if_pos hlh]
    simp only []
    set mid := low + (high - low) / 2 with hmid
    have hmidlt : mid < high := by omega
    have hmidlen : mid < allocs.length := by omega
    by_cases h1 : addr < (allocs.getD mid default).start
    · rw [if_pos h1]
      have h1' : addr < (gi allocs mid).start := h1
      -- the containing record must lie strictly left of mid
      have hjmid : j < mid := by
        rcases Nat.lt_trichotomy j mid with h | h | h
        · exact h
        · subst h; exact absurd hjc.1 (by omega)
        · have hlt := hok.lt_of_lt h (by omega)
          have hse := hok.start_le_end hmidlen
          have := hjc.1
          omega
      exact ih low mid (by omega) (by omega) ⟨j, hj1, hjmid, hjc⟩
    · rw [if_neg h1]
      by_cases h2 : (allocs.getD mid default).end_ < addr
      · rw [if_pos h2]
        have h2' : (gi allocs mid).end_ < addr := h2
        have hjmid : mid < j := by
          rcases Nat.lt_trichotomy j mid with h | h | h
          · have hlt := hok.lt_of_lt h hmidlen
            have hse := hok.start_le_end hmidlen
            have := hjc.2
            omega
          · subst h; exact absurd hjc.2 (by omega)
          · exact h
        exact ih (mid + 1) high (by omega) hhigh ⟨j, by omega, hj2, hjc⟩
      · rw [if_neg h2]
        simp

theorem searchAllocations_sound (allocs : List heapAllocation) (addr i : Nat)
    (h : searchAllocations allocs addr = some i) :
    i < allocs.length ∧ containsAddr allocs i addr := by
  have := searchLoop_sound allocs addr allocs.length 0 allocs.length i h
  exact ⟨this.2.1, this.2.2⟩

theorem searchAllocations_complete (allocs : List heapAllocation) (addr : Nat)
    (hok : RegistryOk allocs) (j : Nat) (hj : j < allocs.length)
    (hc : containsAddr allocs j addr) :
    (searchAllocations allocs addr).isSome :=
  searchLoop_complete allocs addr hok allocs.length 0 allocs.length (by omega)
    (by omega) ⟨j, by omega, hj, hc⟩

theorem containsAddr_unique {l : List heapAllocation} (hok : RegistryOk l)
    {i j addr : Nat} (hi : i < l.length) (hj : j < l.length)
    (hci : containsAddr l i addr) (hcj : containsAddr l j addr) : i = j := by
  rcases Nat.lt_trichotomy i j with h | h | h
  · have := hok.lt_of_lt h hj
    have h1 := hci.2
    have h2 := hcj.1
    omega
  · exact h
  · have := hok.lt_of_lt h hi
    have h1 := hcj.2
    have h2 := hci.1
    omega

theorem no_contains_of_out_of_bounds {l : List heapAllocation} (hok : RegistryOk l)
    {addr : Nat} (hlen : l.length ≠ 0)
    (hb : addr < (gi l 0).start ∨ (gi l (l.length - 1)).end_ < addr) :
    ∀ j, j < l.length → ¬ containsAddr l j addr := by
  intro j hj hc
  rcases hb with hb | hb
  · rcases Nat.eq_zero_or_pos j with h | h
    · subst h; have := hc.1; omega
    · have h0 := hok.lt_of_lt h hj
      have hse := hok.start_le_end (by omega : 0 < l.length)
      have := hc.1
      omega
  · rcases Nat.lt_or_ge j (l.length - 1) with h | h
    · have hlast := hok.lt_of_lt h (by omega)
      have hse := hok.start_le_end (by omega : l.length - 1 < l.length)
      have := hc.2
      omega
    · have hj' : j = l.length - 1 := by omega
      subst hj'
      have := hc.2
      omega

/-- C2: over a sorted, pairwise-disjoint registry, `mark(addr)` returns true
iff some record's inclusive `[start, end]` interval contains `addr` and that
record is unmarked; a true return marks that record and pushes it onto the
head of the scan queue, and a false return leaves the state untouched. -/
theorem mark_correct (st : GCState) (addr : Nat) (hok : RegistryOk st.allocations) :
    ((mark st addr).1 = true ↔
      ∃ i, i < st.allocations.length ∧ containsAddr st.allocations i addr ∧
        (gi st.allocations i).marked = false) ∧
    ((mark st addr).1 = false → (mark st addr).2 = st) ∧
    ((mark st addr).1 = true →
      ∃ i, i < st.allocations.length ∧ containsAddr st.allocations i addr ∧
        (gi st.allocations i).marked = false ∧
        (mark st addr).2 =
          { st with
            allocations := st.allocations.set i
              { (gi st.allocations i) with
                marked := true
                next := st.referenceScanQueue }
            referenceScanQueue := some i }) := by
  by_cases hlen : st.allocations.length = 0
  · have hmark : mark st addr = ((false : Bool), st) := by
      unfold mark
      rw [if_pos hlen]
    rw [hmark]
    refine ⟨⟨fun h => absurd h (by simp), fun h => ?_⟩, fun _ => rfl, fun h => absurd h (by simp)⟩
    obtain ⟨i, hi, _⟩ := h
    omega
  · by_cases hb : addr < (gi st.allocations 0).start ∨
        (gi st.allocations (st.allocations.length - 1)).end_ < addr
    · have hmark : mark st addr = ((false : Bool), st) := by
        unfold mark
        rw [if_neg hlen, if_pos hb]
      rw [hmark]
      refine ⟨⟨fun h => absurd h (by simp), fun h => ?_⟩, fun _ => rfl,
        fun h => absurd h (by simp)⟩
      obtain ⟨i, hi, hc, _⟩ := h
      exact (no_contains_of_out_of_bounds hok hlen hb i hi hc).elim
    · cases hs : searchAllocations st.allocations addr with
      | none =>
        have hmark : mark st addr = ((false : Bool), st) := by
          unfold mark
          rw [if_neg hlen, if_neg hb, hs]
        rw [hmark]
        refine ⟨⟨fun h => absurd h (by simp), fun h => ?_⟩, fun _ => rfl,
          fun h => absurd h (by simp)⟩
        obtain ⟨i, hi, hc, _⟩ := h
        have := searchAllocations_complete st.allocations addr hok i hi hc
        rw [hs] at this
        exact absurd this (by simp)
      | some i =>
        obtain ⟨hilen, hic⟩ := searchAllocations_sound st.allocations addr i hs
        by_cases hm : (gi st.allocations i).marked
        · have hmark : mark st addr = ((false : Bool), st) := by
            unfold mark
            rw [if_neg hlen, if_neg hb, hs]
            simp [hm]
          rw [hmark]
          refine ⟨⟨fun h => absurd h (by simp), fun h => ?_⟩, fun _ => rfl,
            fun h => absurd h (by simp)⟩
          obtain ⟨j, hj, hcj, hmj⟩ := h
          have hji : j = i := containsAddr_unique hok hj hilen hcj hic
          subst hji
          rw [hm] at hmj
          exact absurd hmj (by simp)
        · have hmark : mark st addr = (true, pushAlloc st i) := by
            unfold mark
            rw [if_neg hlen, if_neg hb, hs]
            simp [hm]
          rw [hmark]
          have hmf : (gi st.allocations i).marked = false := by
            simpa using hm
          exact ⟨⟨fun _ => ⟨i, hilen, hic, hmf⟩, fun _ => rfl⟩,
            fun h => absurd h (by simp),
            fun _ => ⟨i, hilen, hic, hmf, rfl⟩⟩

theorem mark_correct_witness :
    RegistryOk [(⟨100, 120, false, none⟩ : heapAllocation)] ∧
    (mark { initialState with allocations := [⟨100, 120, false, none⟩] } 110).1 = true ∧
    (mark { initialState with allocations := [⟨100, 120, false, none⟩] } 110).2.allocations =
      [⟨100, 120, true, none⟩] := by
  have hok : RegistryOk [(⟨100, 120, false, none⟩ : heapAllocation)] := by
    constructor
    · intro a ha
      simp at ha
      subst ha
      decide
    · simp
  have h := mark_correct { initialState with allocations := [⟨100, 120, false, none⟩] } 110 hok
  refine ⟨hok, ?_, ?_⟩
  · rw [h.1]
    refine ⟨0, by decide, ⟨?_, ?_⟩, by decide⟩
    · show (100 : Nat) ≤ 110
      decide
    · show (110 : Nat) ≤ 120
      decide
  · decide

/-! ## sortAllocations (`gc_extalloc.go`): in-place heapsort by `start`

The Go code sorts the registry with an iterative heapsort: `heapify`
sifts index `i` down through the max-heap of the first `n` records,
`sortAllocations` first builds the heap (indices `n/2 - 1` down to `0`)
and then repeatedly swaps the root behind the shrinking heap.  Array
mutation is modelled with `List.set`; a parallel swap assignment reads
both elements before writing. -/

theorem getD_set_ne (l : List heapAllocation) (a d : heapAllocation) :
    ∀ {p j : Nat}, p ≠ j → (l.set j a).getD p d = l.getD p d := by
  induction l with
  | nil => intro p j _; simp
  | cons x xs ih =>
    intro p j hpj
    cases j with
    | zero =>
      cases p with
      | zero => exact absurd rfl hpj
      | succ q => simp
    | succ k =>
      cases p with
      | zero => simp
      | succ q => simpa using ih (by omega)

theorem getD_set_eq (l : List heapAllocation) (a d : heapAllocation) :
    ∀ {j : Nat}, j < l.length → (l.set j a).getD j d = a := by
  induction l with
  | nil => intro j h; simp at h
  | cons x xs ih =>
    intro j hj
    cases j with
    | zero => simp
    | succ k => simpa using ih (by simpa using hj)

theorem set_getD_self (l : List heapAllocation) (d : heapAllocation) :
    ∀ j : Nat, l.set j (l.getD j d) = l := by
  induction l with
  | nil => intro j; simp
  | cons x xs ih =>
    intro j
    cases j with
    | zero => simp
    | succ k => simpa using ih k

/-- `arr[i], arr[j] = arr[j], arr[i]`: both operands are read before the
writes, matching Go's parallel assignment. -/
def swapL (l : List heapAllocation) (i j : Nat) : List heapAllocation :=
  (l.set i (l.getD j default)).set j (l.getD i default)

theorem length_swapL (l : List heapAllocation) (i j : Nat) :
    (swapL l i j).length = l.length := by
  simp [swapL]

theorem gi_swapL_fst (l : List heapAllocation) {i j : Nat} (hij : i ≠ j)
    (hi : i < l.length) : gi (swapL l i j) i = gi l j := by
  unfold gi swapL
  rw [getD_set_ne _ _ _ hij, getD_set_eq _ _ _ hi]

theorem gi_swapL_snd (l : List heapAllocation) {i j : Nat} (hj : j < l.length) :
    gi (swapL l i j) j = gi l i := by
  unfold gi swapL
  rw [getD_set_eq _ _ _ (by simpa using hj)]

theorem gi_swapL_other (l : List heapAllocation) {i j p : Nat}
    (hpi : p ≠ i) (hpj : p ≠ j) : gi (swapL l i j) p = gi l p := by
  unfold gi swapL
  rw [getD_set_ne _ _ _ hpj, getD_set_ne _ _ _ hpi]

theorem perm_getD_set (a d : heapAllocation) :
    ∀ (l : List heapAllocation) (j : Nat), j < l.length →
      List.Perm (l.getD j d :: l.set j a) (a :: l) := by
  intro l
  induction l with
  | nil => intro j h; simp at h
  | cons x xs ih =>
    intro j hj
    cases j with
    | zero => simpa using List.Perm.swap a x xs
    | succ k =>
      have hk : k < xs.length := by simpa using hj
      exact ((List.Perm.swap x (xs.getD k d) (xs.set k a)).trans
        ((ih k hk).cons x)).trans (List.Perm.swap a x xs)

theorem swapL_perm (l : List heapAllocation) {i j : Nat}
    (hi : i < l.length) (hj : j < l.length) : List.Perm (swapL l i j) l := by
  by_cases hij : i = j
  · subst hij
    have hself : l.set i (l.getD i default) = l := set_getD_self l default i
    unfold swapL
    rw [hself, hself]
  · have h1 := perm_getD_set (l.getD i default) default (l.set i (l.getD j default)) j
      (by simpa using hj)
    rw [getD_set_ne _ _ _ (Ne.symm hij)] at h1
    have h2 := perm_getD_set (l.getD j default) default l i hi
    exact List.Perm.cons_inv (h1.trans h2)

/-- The sort key: a record's `start` address. -/
def key (l : List heapAllocation) (i : Nat) : Nat := (gi l i).start

/-- The first `max` update of `heapify`:
`if left < n && arr[left].start > arr[max].start { max = left }`. -/
def heapifyMax1 (arr : List heapAllocation) (n i : Nat) : Nat :=
  if 2 * i + 1 < n ∧ key arr i < key arr (2 * i + 1) then 2 * i + 1 else i

/-- The second `max` update of `heapify`:
`if right < n && arr[right].start > arr[max].start { max = right }`. -/
def heapifyMax (arr : List heapAllocation) (n i : Nat) : Nat :=
  if 2 * i + 2 < n ∧ key arr (heapifyMax1 arr n i) < key arr (2 * i + 2) then 2 * i + 2
  else heapifyMax1 arr n i

theorem heapifyMax_cases (arr : List heapAllocation) (n i : Nat) :
    heapifyMax arr n i = i ∨ heapifyMax arr n i = 2 * i + 1 ∨
      heapifyMax arr n i = 2 * i + 2 := by
  unfold heapifyMax heapifyMax1
  split_ifs <;> omega

theorem heapifyMax_lt (arr : List heapAllocation) (n i : Nat)
    (h : heapifyMax arr n i ≠ i) :
    i < heapifyMax arr n i ∧ heapifyMax arr n i < n := by
  unfold heapifyMax heapifyMax1 at *
  split_ifs at * <;> omega

theorem heapifyMax_key_self (arr : List heapAllocation) (n i : Nat) :
    key arr i ≤ key arr (heapifyMax arr n i) := by
  unfold heapifyMax heapifyMax1
  split_ifs <;> omega

theorem heapifyMax_key_left (arr : List heapAllocation) (n i : Nat)
    (h : 2 * i + 1 < n) : key arr (2 * i + 1) ≤ key arr (heapifyMax arr n i) := by
  unfold heapifyMax heapifyMax1
  split_ifs <;> omega

theorem heapifyMax_key_right (arr : List heapAllocation) (n i : Nat)
    (h : 2 * i + 2 < n) : key arr (2 * i + 2) ≤ key arr (heapifyMax arr n i) := by
  unfold heapifyMax heapifyMax1
  split_ifs <;> omega

/-- `heapify(arr, n, i)`: sift index `i` down through the max-heap of the
first `n` entries.  The Go loop re-runs with `i = max` after each swap;
`max > i` whenever a swap happens, so the recursion is on `n - i`. -/
def heapify (arr : List heapAllocation) (n i : Nat) : List heapAllocation :=
  if h : heapifyMax arr n i ≠ i then
    heapify (swapL arr i (heapifyMax arr n i)) n (heapifyMax arr n i)
  else arr
  termination_by n - i
  decreasing_by
    have := heapifyMax_lt arr n i h
    omega

/-- `p` lies in the binary-heap subtree rooted at `i`
(indices reachable from `i` by child steps `p ↦ 2p+1 / 2p+2`). -/
inductive Desc : Nat → Nat → Prop
  | refl (i : Nat) : Desc i i
  | left {i p : Nat} : Desc i p → Desc i (2 * p + 1)
  | right {i p : Nat} : Desc i p → Desc i (2 * p + 2)

theorem Desc.le {i p : Nat} (h : Desc i p) : i ≤ p := by
  induction h with
  | refl => exact Nat.le_refl _
  | left _ ih => omega
  | right _ ih => omega

theorem Desc.trans {i j p : Nat} (h1 : Desc i j) (h2 : Desc j p) : Desc i p := by
  induction h2 with
  | refl => exact h1
  | left _ ih => exact Desc.left ih
  | right _ ih => exact Desc.right ih

theorem Desc.ge_of_ne {a p : Nat} (h : Desc a p) : p = a ∨ 2 * a + 1 ≤ p := by
  induction h with
  | refl => exact Or.inl rfl
  | left h ih => have := h.le; omega
  | right h ih => have := h.le; omega

theorem Desc.parent {a p : Nat} (h : Desc a p) (hne : p ≠ a) :
    Desc a ((p - 1) / 2) := by
  cases h with
  | refl => exact absurd rfl hne
  | @left q h' =>
    have heq : (2 * q + 1 - 1) / 2 = q := by omega
    rw [heq]; exact h'
  | @right q h' =>
    have heq : (2 * q + 2 - 1) / 2 = q := by omega
    rw [heq]; exact h'

theorem desc_zero (p : Nat) : Desc 0 p := by
  induction p using Nat.strong_induction_on with
  | _ p ih =>
    rcases Nat.eq_zero_or_pos p with h | h
    · subst h; exact Desc.refl 0
    · have hq : (p - 1) / 2 < p := by omega
      have hd := ih _ hq
      rcases Nat.even_or_odd (p - 1) with he | ho
      · obtain ⟨k, hk⟩ := he
        have : p = 2 * ((p - 1) / 2) + 1 := by omega
        rw [this]; exact Desc.left hd
      · obtain ⟨k, hk⟩ := ho
        have : p = 2 * ((p - 1) / 2) + 2 := by omega
        rw [this]; exact Desc.right hd

/-- The heap ordering holds at every parent index `≥ i` within the first
`n` entries: each child's key is at most its parent's key. -/
def HeapFrom (l : List heapAllocation) (n i : Nat) : Prop :=
  ∀ c, c < n → 0 < c → i ≤ (c - 1) / 2 → key l c ≤ key l ((c - 1) / 2)

theorem HeapFrom.mono {l : List heapAllocation} {n i i' : Nat}
    (h : HeapFrom l n i) (hle : i ≤ i') : HeapFrom l n i' :=
  fun c hc h0 hp => h c hc h0 (Nat.le_trans hle hp)

theorem key_le_of_desc {l : List heapAllocation} {n a : Nat}
    (hh : HeapFrom l n a) {p : Nat} (hd : Desc a p) :
    p < n → key l p ≤ key l a := by
  induction hd with
  | refl => intro _; exact Nat.le_refl _
  | @left q hq ih =>
    intro hp
    have heq : (2 * q + 1 - 1) / 2 = q := by omega
    have h1 := hh (2 * q + 1) hp (by omega) (by rw [heq]; exact hq.le)
    rw [heq] at h1
    exact Nat.le_trans h1 (ih (by omega))
  | @right q hq ih =>
    intro hp
    have heq : (2 * q + 2 - 1) / 2 = q := by omega
    have h1 := hh (2 * q + 2) hp (by omega) (by rw [heq]; exact hq.le)
    rw [heq] at h1
    exact Nat.le_trans h1 (ih (by omega))

theorem desc_of_heapifyMax_ne (arr : List heapAllocation) (n i : Nat)
    (h : heapifyMax arr n i ≠ i) : Desc i (heapifyMax arr n i) := by
  rcases heapifyMax_cases arr n i with hc | hc | hc
  · exact absurd hc h
  · rw [hc]; exact Desc.left (Desc.refl i)
  · rw [hc]; exact Desc.right (Desc.refl i)

theorem heapify_eq_of_le (arr : List heapAllocation) {n i : Nat} (h : n ≤ i) :
    heapify arr n i = arr := by
  have hmi : heapifyMax arr n i = i := by
    by_contra hne
    have := heapifyMax_lt arr n i hne
    omega
  rw [heapify, dif_neg (fun hc => hc hmi)]

theorem heapify_unchanged :
    ∀ k arr n i p, n - i ≤ k → ¬ Desc i p →
      gi (heapify arr n i) p = gi arr p := by
  intro k
  induction k with
  | zero =>
    intro arr n i p hk _
    rw [heapify_eq_of_le arr (by omega)]
  | succ k ih =>
    intro arr n i p hk hp
    by_cases hm : heapifyMax arr n i ≠ i
    · rw [heapify, dif_pos hm]
      have hlt := heapifyMax_lt arr n i hm
      have hdm := desc_of_heapifyMax_ne arr n i hm
      have hpm : ¬ Desc (heapifyMax arr n i) p := fun hd => hp (hdm.trans hd)
      rw [ih _ n _ p (by omega) hpm]
      exact gi_swapL_other arr (fun hc => hp (hc ▸ Desc.refl i))
        (fun hc => hp (hc ▸ hdm))
    · rw [heapify, dif_neg hm]

theorem heapify_unchanged_ge :
    ∀ k arr n i p, n - i ≤ k → n ≤ p →
      gi (heapify arr n i) p = gi arr p := by
  intro k
  induction k with
  | zero =>
    intro arr n i p hk _
    rw [heapify_eq_of_le arr (by omega)]
  | succ k ih =>
    intro arr n i p hk hp
    by_cases hm : heapifyMax arr n i ≠ i
    · rw [heapify, dif_pos hm]
      have hlt := heapifyMax_lt arr n i hm
      rw [ih _ n _ p (by omega) hp]
      exact gi_swapL_other arr (by omega) (by omega)
    · rw [heapify, dif_neg hm]

theorem heapify_perm :
    ∀ k arr n i, n - i ≤ k → n ≤ arr.length →
      List.Perm (heapify arr n i) arr := by
  intro k
  induction k with
  | zero =>
    intro arr n i hk _
    rw [heapify_eq_of_le arr (by omega)]
  | succ k ih =>
    intro arr n i hk hn
    by_cases hm : heapifyMax arr n i ≠ i
    · rw [heapify, dif_pos hm]
      have hlt := heapifyMax_lt arr n i hm
      have hperm := swapL_perm arr (show i < arr.length by omega)
        (show heapifyMax arr n i < arr.length by omega)
      exact (ih _ n _ (by omega) (by rw [length_swapL]; omega)).trans hperm
    · rw [heapify, dif_neg hm]

theorem heapify_length (arr : List heapAllocation) (n i : Nat) (hn : n ≤ arr.length) :
    (heapify arr n i).length = arr.length :=
  (heapify_perm n arr n i (by omega) hn).length_eq

theorem heapify_bound :
    ∀ k arr n i b, n - i ≤ k → n ≤ arr.length →
      (∀ p, Desc i p → p < n → key arr p ≤ b) →
      ∀ p, Desc i p → p < n → key (heapify arr n i) p ≤ b := by
  intro k
  induction k with
  | zero =>
    intro arr n i b hk _ hpre p hd hp
    rw [heapify_eq_of_le arr (by omega)]
    exact hpre p hd hp
  | succ k ih =>
    intro arr n i b hk hn hpre p hd hp
    by_cases hm : heapifyMax arr n i ≠ i
    · rw [heapify, dif_pos hm]
      have hlt := heapifyMax_lt arr n i hm
      have hdm := desc_of_heapifyMax_ne arr n i hm
      have hpre' : ∀ q, Desc (heapifyMax arr n i) q → q < n →
          key (swapL arr i (heapifyMax arr n i)) q ≤ b := by
        intro q hq hqn
        by_cases hqm : q = heapifyMax arr n i
        · subst hqm
          unfold key
          rw [gi_swapL_snd arr (by omega)]
          exact hpre i (Desc.refl i) (by omega)
        · have hqge := hq.le
          unfold key
          rw [gi_swapL_other arr (by omega) hqm]
          exact hpre q (hdm.trans hq) hqn
      by_cases hdp : Desc (heapifyMax arr n i) p
      · exact ih _ n _ b (by omega) (by rw [length_swapL]; omega) hpre' p hdp hp
      · have huc := heapify_unchanged k (swapL arr i (heapifyMax arr n i)) n
          (heapifyMax arr n i) p (by omega) hdp
        unfold key
        rw [huc]
        by_cases hpi : p = i
        · subst hpi
          rw [gi_swapL_fst arr (by omega) (by omega)]
          exact hpre _ hdm (by omega)
        · have hpm : p ≠ heapifyMax arr n i := fun hc => hdp (hc ▸ Desc.refl _)
          rw [gi_swapL_other arr hpi hpm]
          exact hpre p hd hp
    · rw [heapify, dif_neg hm]
      exact hpre p hd hp

theorem heapify_heapFrom :
    ∀ k arr n i, n - i ≤ k → n ≤ arr.length → HeapFrom arr n (i + 1) →
      HeapFrom (heapify arr n i) n i := by
  intro k
  induction k with
  | zero =>
    intro arr n i hk _ hHF
    rw [heapify_eq_of_le arr (by omega)]
    intro c hc h0 hq
    exact absurd hq (by omega)
  | succ k ih =>
    intro arr n i hk hn hHF
    by_cases hm : heapifyMax arr n i ≠ i
    · rw [heapify, dif_pos hm]
      have hlt := heapifyMax_lt arr n i hm
      have hdm := desc_of_heapifyMax_ne arr n i hm
      have hmc : heapifyMax arr n i = 2 * i + 1 ∨ heapifyMax arr n i = 2 * i + 2 := by
        rcases heapifyMax_cases arr n i with hc | hc | hc
        · exact absurd hc hm
        · exact Or.inl hc
        · exact Or.inr hc
      set m := heapifyMax arr n i with hmdef
      -- heap property above m is preserved by the swap
      have h1 : HeapFrom (swapL arr i m) n (m + 1) := by
        intro c hc h0 hq
        have hcge : 2 * ((c - 1) / 2) + 1 ≤ c := by omega
        unfold key
        rw [gi_swapL_other arr (show c ≠ i by omega) (show c ≠ m by omega),
          gi_swapL_other arr (show (c - 1) / 2 ≠ i by omega)
            (show (c - 1) / 2 ≠ m by omega)]
        exact hHF c hc h0 (by omega)
      have hrec := ih (swapL arr i m) n m (by omega)
        (by rw [length_swapL]; omega) h1
      intro c hc h0 hq
      have hcge : 2 * ((c - 1) / 2) + 1 ≤ c := by omega
      rcases Nat.lt_or_ge ((c - 1) / 2) m with hqm | hqm
      · rcases Nat.lt_or_ge i ((c - 1) / 2) with hqi | hqi
        · -- i < parent < m: both parent and child are outside the subtree of m
          have hcm : m < c := by
            rcases hmc with h | h <;> omega
          have hndq : ¬ Desc m ((c - 1) / 2) := fun hd => by have := hd.le; omega
          have hndc : ¬ Desc m c := by
            intro hd
            have := (hd.parent (by omega)).le
            omega
          unfold key
          rw [heapify_unchanged k _ n m c (by omega) hndc,
            heapify_unchanged k _ n m ((c - 1) / 2) (by omega) hndq,
            gi_swapL_other arr (show c ≠ i by omega) (show c ≠ m by omega),
            gi_swapL_other arr (show (c - 1) / 2 ≠ i by omega)
              (show (c - 1) / 2 ≠ m by omega)]
          exact hHF c hc h0 (by omega)
        · -- parent = i
          have hqeq : (c - 1) / 2 = i := by omega
          have hci : c = 2 * i + 1 ∨ c = 2 * i + 2 := by omega
          have hresi : key (heapify (swapL arr i m) n m) i = key arr m := by
            unfold key
            rw [heapify_unchanged k _ n m i (by omega)
                (fun hd => by have := hd.le; omega),
              gi_swapL_fst arr (by omega) (by omega)]
          rw [hqeq, hresi]
          by_cases hcm : c = m
          · have hpre2 : ∀ q, Desc m q → q < n → key (swapL arr i m) q ≤ key arr m := by
              intro q hqd hqn
              by_cases hqc : q = m
              · subst hqc
                unfold key
                rw [gi_swapL_snd arr (by omega)]
                exact heapifyMax_key_self arr n i
              · have := hqd.le
                unfold key
                rw [gi_swapL_other arr (show q ≠ i by omega) hqc]
                exact key_le_of_desc (hHF.mono (by omega)) hqd hqn
            rw [hcm]
            exact heapify_bound k (swapL arr i m) n m (key arr m) (by omega)
              (by rw [length_swapL]; omega) hpre2 m (Desc.refl m) (by omega)
          · -- c is the sibling of m
            have hmge : 2 * i + 1 ≤ m := by rcases hmc with h | h <;> omega
            have hndc : ¬ Desc m c := by
              intro hd
              rcases hd.ge_of_ne with h | h
              · exact hcm h
              · omega
            unfold key
            rw [heapify_unchanged k _ n m c (by omega) hndc,
              gi_swapL_other arr (show c ≠ i by omega) hcm]
            rcases hci with h | h
            · rw [h]; exact heapifyMax_key_left arr n i (by omega)
            · rw [h]; exact heapifyMax_key_right arr n i (by omega)
      · -- parent ≥ m: covered by the recursive heap property
        exact hrec c hc h0 hqm
    · rw [heapify, dif_neg hm]
      have hmi : heapifyMax arr n i = i := not_not.mp hm
      intro c hc h0 hq
      rcases Nat.lt_or_ge ((c - 1) / 2) (i + 1) with h | h
      · have hqeq : (c - 1) / 2 = i := by omega
        have hci : c = 2 * i + 1 ∨ c = 2 * i + 2 := by omega
        rw [hqeq]
        rcases hci with h' | h'
        · have hkey := heapifyMax_key_left arr n i (by omega)
          rw [hmi] at hkey
          rw [h']; exact hkey
        · have hkey := heapifyMax_key_right arr n i (by omega)
          rw [hmi] at hkey
          rw [h']; exact hkey
      · exact hHF c hc h0 h

/-- Phase one of `sortAllocations`: `for i := n/2 - 1; i >= 0; i--` runs
`heapify(allocations, n, i)`; the counter argument is one past the next
index to process. -/
def buildHeapAux (n : Nat) : Nat → List heapAllocation → List heapAllocation
  | 0, arr => arr
  | k + 1, arr => buildHeapAux n k (heapify arr n k)

/-- Phase two of `sortAllocations`: `for end := n - 1; end > 0; end--`
swaps the heap root behind the shrinking heap and restores the heap. -/
def sortDown : Nat → List heapAllocation → List heapAllocation
  | 0, arr => arr
  | e + 1, arr => sortDown e (heapify (swapL arr 0 (e + 1)) (e + 1) 0)

/-- In-place heapsort of the registry by `start`, as in `sortAllocations`. -/
def sortAllocations (arr : List heapAllocation) : List heapAllocation :=
  sortDown (arr.length - 1) (buildHeapAux arr.length (arr.length / 2) arr)

theorem buildHeapAux_perm (n : Nat) :
    ∀ k arr, n ≤ arr.length → List.Perm (buildHeapAux n k arr) arr := by
  intro k
  induction k with
  | zero => intro arr _; exact List.Perm.refl arr
  | succ k ih =>
    intro arr hn
    have hp := heapify_perm n arr n k (by omega) hn
    exact (ih (heapify arr n k) (by rw [heapify_length arr n k hn]; omega)).trans hp

theorem heapFrom_start (arr : List heapAllocation) (n : Nat) :
    HeapFrom arr n (n / 2) := by
  intro c hc h0 hq
  omega

theorem buildHeapAux_heapFrom (n : Nat) :
    ∀ k arr, n ≤ arr.length → HeapFrom arr n k →
      HeapFrom (buildHeapAux n k arr) n 0 := by
  intro k
  induction k with
  | zero => intro arr _ h; exact h
  | succ k ih =>
    intro arr hn hHF
    exact ih (heapify arr n k)
      (by rw [heapify_length arr n k hn]; omega)
      (heapify_heapFrom n arr n k (by omega) hn hHF)

theorem sortDown_perm : ∀ e arr, e < arr.length → List.Perm (sortDown e arr) arr := by
  intro e
  induction e with
  | zero => intro arr _; exact List.Perm.refl arr
  | succ e ih =>
    intro arr he
    have hswap := swapL_perm arr (show 0 < arr.length by omega) he
    have hlen1 : (swapL arr 0 (e + 1)).length = arr.length := length_swapL arr 0 (e + 1)
    have hheap := heapify_perm (e + 1) (swapL arr 0 (e + 1)) (e + 1) 0 (by omega)
      (by omega)
    have hlen2 : (heapify (swapL arr 0 (e + 1)) (e + 1) 0).length = arr.length := by
      rw [heapify_length _ _ _ (by omega)]; omega
    exact ((ih _ (by omega)).trans hheap).trans hswap

theorem sortDown_spec (N : Nat) :
    ∀ e arr, arr.length = N → e < N →
      HeapFrom arr (e + 1) 0 →
      (∀ p q, e + 1 ≤ p → p ≤ q → q < N → key arr p ≤ key arr q) →
      (∀ p q, p ≤ e → e + 1 ≤ q → q < N → key arr p ≤ key arr q) →
      ∀ p q, p ≤ q → q < N →
        key (sortDown e arr) p ≤ key (sortDown e arr) q := by
  intro e
  induction e with
  | zero =>
    intro arr hlen he hheap hsuf hcross p q hpq hq
    rcases Nat.eq_or_lt_of_le hpq with h | h
    · subst h; exact Nat.le_refl _
    · rcases Nat.eq_zero_or_pos p with h0 | h0
      · subst h0; exact hcross 0 q (Nat.le_refl 0) (by omega) hq
      · exact hsuf p q (by omega) hpq hq
  | succ e ih =>
    intro arr hlen he hheap hsuf hcross p q hpq hq
    have hlen' : (swapL arr 0 (e + 1)).length = N := by rw [length_swapL]; exact hlen
    have hlen'' : (heapify (swapL arr 0 (e + 1)) (e + 1) 0).length = N := by
      rw [heapify_length _ _ _ (by omega)]; exact hlen'
    set arrS := swapL arr 0 (e + 1) with harrS
    set arrH := heapify arrS (e + 1) 0 with harrH
    -- every key of the heap of size e + 2 is at most the root key
    have hroot : ∀ r, r < e + 2 → key arr r ≤ key arr 0 := by
      intro r hr
      exact key_le_of_desc hheap (desc_zero r) hr
    -- the slot behind the shrunk heap now holds the old root
    have k1 : key arrH (e + 1) = key arr 0 := by
      unfold key
      rw [harrH, heapify_unchanged_ge (e + 1) arrS (e + 1) 0 (e + 1) (by omega)
        (Nat.le_refl _), harrS, gi_swapL_snd arr (by omega)]
    -- slots beyond e + 1 are untouched
    have k2 : ∀ r, e + 2 ≤ r → key arrH r = key arr r := by
      intro r hr
      unfold key
      rw [harrH, heapify_unchanged_ge (e + 1) arrS (e + 1) 0 r (by omega) (by omega),
        harrS, gi_swapL_other arr (by omega) (by omega)]
    -- prefix keys are bounded by the old root key
    have hbnd : ∀ r, r < e + 1 → key arrH r ≤ key arr 0 := by
      intro r hr
      refine heapify_bound (e + 1) arrS (e + 1) 0 (key arr 0) (by omega) (by omega)
        ?_ r (desc_zero r) hr
      intro s _ hs
      rcases Nat.eq_zero_or_pos s with h0 | h0
      · subst h0
        unfold key
        rw [harrS, gi_swapL_fst arr (by omega) (by omega)]
        exact hroot (e + 1) (by omega)
      · unfold key
        rw [harrS, gi_swapL_other arr (by omega) (by omega)]
        exact hroot s (by omega)
    -- invariants for the smaller instance
    have hheap' : HeapFrom arrH (e + 1) 0 := by
      refine heapify_heapFrom (e + 1) arrS (e + 1) 0 (by omega) (by omega) ?_
      intro c hc h0 hqp
      have hcge : 2 * ((c - 1) / 2) + 1 ≤ c := by omega
      unfold key
      rw [harrS, gi_swapL_other arr (by omega) (by omega),
        gi_swapL_other arr (by omega) (by omega)]
      exact hheap c (by omega) h0 (by omega)
    have hsuf' : ∀ p q, e + 1 ≤ p → p ≤ q → q < N → key arrH p ≤ key arrH q := by
      intro p q hp hpq hq
      rcases Nat.eq_or_lt_of_le hpq with h | h
      · subst h; exact Nat.le_refl _
      · rcases Nat.eq_or_lt_of_le hp with hp1 | hp1
        · rw [← hp1, k1, k2 q (by omega)]
          exact hcross 0 q (by omega) (by omega) hq
        · rw [k2 p (by omega), k2 q (by omega)]
          exact hsuf p q (by omega) hpq hq
    have hcross' : ∀ p q, p ≤ e → e + 1 ≤ q → q < N → key arrH p ≤ key arrH q := by
      intro p q hp hq' hq
      have hpb : key arrH p ≤ key arr 0 := hbnd p (by omega)
      rcases Nat.eq_or_lt_of_le hq' with h1 | h1
      · rw [← h1, k1]; exact hpb
      · rw [k2 q (by omega)]
        exact Nat.le_trans hpb (hcross 0 q (by omega) (by omega) hq)
    exact ih arrH hlen'' (by omega) hheap' hsuf' hcross' p q hpq hq

theorem sortAllocations_perm (arr : List heapAllocation) :
    List.Perm (sortAllocations arr) arr := by
  unfold sortAllocations
  have hb := buildHeapAux_perm arr.length (arr.length / 2) arr (Nat.le_refl _)
  rcases Nat.eq_zero_or_pos arr.length with h0 | h0
  · have : arr.length - 1 = 0 := by omega
    rw [this]
    exact hb
  · exact (sortDown_perm (arr.length - 1) _ (by rw [hb.length_eq]; omega)).trans hb

theorem sortAllocations_sorted (arr : List heapAllocation) :
    ∀ p q, p ≤ q → q < arr.length →
      key (sortAllocations arr) p ≤ key (sortAllocations arr) q := by
  intro p q hpq hq
  rcases Nat.eq_zero_or_pos arr.length with h0 | h0
  · omega
  · unfold sortAllocations
    have hb := buildHeapAux_perm arr.length (arr.length / 2) arr (Nat.le_refl _)
    have hHF := buildHeapAux_heapFrom arr.length (arr.length / 2) arr (Nat.le_refl _)
      (heapFrom_start arr arr.length)
    have hN : arr.length - 1 + 1 = arr.length := by omega
    refine sortDown_spec arr.length (arr.length - 1) _ hb.length_eq (by omega)
      (by rw [hN]; exact hHF) ?_ ?_ p q hpq hq
    · intro p q hp _ hq'
      omega
    · intro p q _ hq' hq''
      omega

/-! ## prepareGC (`gc_extalloc.go`) -/

/-- `unmarkAllocations`: clear every record's `marked` flag and `next` link. -/
def unmarkAllocations (l : List heapAllocation) : List heapAllocation :=
  l.map (fun a => { a with marked := false, next := none })

/-- `prepareGC`: sort the registry, unmark every record, reset the queue. -/
def prepareGC (st : GCState) : GCState :=
  { st with
    allocations := unmarkAllocations (sortAllocations st.allocations)
    referenceScanQueue := none }

theorem gi_unmark (l : List heapAllocation) {k : Nat} (hk : k < l.length) :
    gi (unmarkAllocations l) k =
      { (gi l k) with marked := false, next := none } := by
  unfold gi unmarkAllocations
  rw [List.getD_eq_getElem _ _ (by simpa using hk), List.getD_eq_getElem _ _ hk]
  simp

/-- C3: immediately after the prepare step of `GC()`, the registry is a
permutation (as `(start, end)` pairs) of what it held before, its records
are sorted by `start` at adjacent positions, every `marked` flag is false,
every `next` link is null, and the scan-queue head is null. -/
theorem prepareGC_correct (st : GCState) :
    List.Perm ((prepareGC st).allocations.map (fun a => (a.start, a.end_)))
      (st.allocations.map (fun a => (a.start, a.end_))) ∧
    (∀ k, k + 1 < (prepareGC st).allocations.length →
      (gi (prepareGC st).allocations k).start ≤
        (gi (prepareGC st).allocations (k + 1)).start) ∧
    (∀ a ∈ (prepareGC st).allocations, a.marked = false ∧ a.next = none) ∧
    (prepareGC st).referenceScanQueue = none := by
  have hperm := sortAllocations_perm st.allocations
  have hlen : (unmarkAllocations (sortAllocations st.allocations)).length =
      (sortAllocations st.allocations).length := by
    simp [unmarkAllocations]
  refine ⟨?_, ?_, ?_, rfl⟩
  · have hmm : (prepareGC st).allocations.map (fun a => (a.start, a.end_)) =
        (sortAllocations st.allocations).map (fun a => (a.start, a.end_)) := by
      simp [prepareGC, unmarkAllocations, List.map_map]
    rw [hmm]
    exact hperm.map _
  · intro k hk
    have hk' : k + 1 < (sortAllocations st.allocations).length := by
      simpa [prepareGC, hlen] using hk
    have h1 := gi_unmark (sortAllocations st.allocations) (show k <
      (sortAllocations st.allocations).length by omega)
    have h2 := gi_unmark (sortAllocations st.allocations) hk'
    show (gi (unmarkAllocations (sortAllocations st.allocations)) k).start ≤
      (gi (unmarkAllocations (sortAllocations st.allocations)) (k + 1)).start
    rw [h1, h2]
    exact sortAllocations_sorted st.allocations k (k + 1) (by omega)
      (by rw [← hperm.length_eq]; exact hk')
  · intro a ha
    simp only [prepareGC, unmarkAllocations, List.mem_map] at ha
    obtain ⟨b, _, hb⟩ := ha
    rw [← hb]
    exact ⟨rfl, rfl⟩

/-! ## scan and finishMarking (`gc_extalloc.go`)

`scan(start, end)` aligns `start` up to the pointer alignment, loads every
pointer-aligned word `addr` with `addr + 4 ≤ end` and feeds it to `mark`,
then performs one tail load at `end - 4` when the range can hold a word.
Memory is modelled as a fixed word-valued function of addresses (the
collector only reads during a cycle).  `finishMarking` pops the intrusive
scan queue until it is empty; the loop itself carries no bound, so it is
modelled with an explicit fuel, and `finishMarking_terminates` proves the
claimed termination: a fuel of twice the number of unmarked records plus
the queue length always empties the queue. -/

/-- The addresses whose words `scan(start, end)` feeds to `mark`, in order. -/
def scanAddrs (start end_ : Nat) : List Nat :=
  let s := ((start + ptrAlignment - 1) / ptrAlignment) * ptrAlignment
  (List.range ((end_ - s) / ptrAlignment)).map (fun k => s + ptrAlignment * k) ++
    (if s + ptrSize ≤ end_ then [end_ - ptrSize] else [])

/-- One mark call of the conservative scanner on the word at address `p`. -/
def scanStep (mem : Nat → Nat) (st : GCState) (p : Nat) : GCState :=
  (mark st (mem p)).2

/-- `scan(start, end)`: mark every pointer-aligned word in the range. -/
def scan (mem : Nat → Nat) (st : GCState) (start end_ : Nat) : GCState :=
  (scanAddrs start end_).foldl (scanStep mem) st

/-- The scan queue rooted at `head` materialized as the list of registry
indices obtained by following the `next` links. -/
inductive ChainFrom (allocs : List heapAllocation) : Option Nat → List Nat → Prop
  | nil : ChainFrom allocs none []
  | cons {i : Nat} {rest : List Nat} :
      i < allocs.length → ChainFrom allocs (gi allocs i).next rest →
      ChainFrom allocs (some i) (i :: rest)

/-- Number of unmarked records, the potential consumed by queue pushes. -/
def unmarkedCount (l : List heapAllocation) : Nat :=
  (l.filter (fun a => !a.marked)).length

/-- `finishMarking` with an explicit bound on the number of loop
iterations; each iteration pops the queue head and scans its range. -/
def finishMarkingFuel (mem : Nat → Nat) : Nat → GCState → GCState
  | 0, st => st
  | f + 1, st =>
    match st.referenceScanQueue with
    | none => st
    | some i =>
      finishMarkingFuel mem f
        (scan mem { st with referenceScanQueue := (gi st.allocations i).next }
          (gi st.allocations i).start (gi st.allocations i).end_)

theorem ChainFrom_set_of_not_mem {l : List heapAllocation} {h : Option Nat}
    {q : List Nat} (hc : ChainFrom l h q) {i : Nat} {x : heapAllocation}
    (hni : i ∉ q) : ChainFrom (l.set i x) h q := by
  induction hc with
  | nil => exact ChainFrom.nil
  | @cons j rest hj hrest ih =>
    have hij : i ≠ j := fun hc' => hni (hc' ▸ List.mem_cons_self j rest)
    have hgij : gi (l.set i x) j = gi l j := by
      unfold gi
      exact getD_set_ne l x default (Ne.symm hij)
    refine ChainFrom.cons (by simpa using hj) ?_
    rw [hgij]
    exact ih (fun hmem => hni (List.mem_cons_of_mem j hmem))

theorem unmarkedCount_set_marked :
    ∀ (l : List heapAllocation) (i : Nat) (x : heapAllocation),
      i < l.length → (gi l i).marked = false → x.marked = true →
      unmarkedCount (l.set i x) + 1 = unmarkedCount l := by
  intro l
  induction l with
  | nil => intro i x hi _ _; simp at hi
  | cons a rest ih =>
    intro i x hi hm hx
    cases i with
    | zero =>
      have ha : a.marked = false := by simpa [gi] using hm
      simp [unmarkedCount, ha, hx]
    | succ j =>
      have hj : j < rest.length := by simpa using hi
      have hm' : (gi rest j).marked = false := by simpa [gi] using hm
      have := ih j x hj hm' hx
      by_cases ham : a.marked
      · simpa [unmarkedCount, ham] using this
      · simp only [unmarkedCount, List.set_cons_succ, List.filter_cons] at *
        simp only [ham] at *
        simpa using this

/-- `mark` either leaves the state unchanged and returns false, or pushes
some unmarked in-range record and returns true. -/
theorem mark_cases (st : GCState) (addr : Nat) :
    mark st addr = (false, st) ∨
      ∃ i, i < st.allocations.length ∧ (gi st.allocations i).marked = false ∧
        mark st addr = (true, pushAlloc st i) := by
  unfold mark
  by_cases hlen : st.allocations.length = 0
  · rw [if_pos hlen]; exact Or.inl rfl
  · rw [if_neg hlen]
    by_cases hb : addr < (gi st.allocations 0).start ∨
        (gi st.allocations (st.allocations.length - 1)).end_ < addr
    · rw [if_pos hb]; exact Or.inl rfl
    · rw [if_neg hb]
      cases hs : searchAllocations st.allocations addr with
      | none => exact Or.inl rfl
      | some i =>
        obtain ⟨hilen, _⟩ := searchAllocations_sound st.allocations addr i hs
        by_cases hm : (gi st.allocations i).marked
        · left
          simp [hm]
        · right
          refine ⟨i, hilen, by simpa using hm, ?_⟩
          simp [hm]

/-- The queue/marking invariant: the materialized chain is valid and every
queued record is marked. -/
def QueueInv (st : GCState) (q : List Nat) : Prop :=
  ChainFrom st.allocations st.referenceScanQueue q ∧
    ∀ i ∈ q, (gi st.allocations i).marked = true

theorem mark_queueInv {st : GCState} {q : List Nat} (hinv : QueueInv st q)
    (addr : Nat) :
    ∃ q', QueueInv (mark st addr).2 q' ∧
      2 * unmarkedCount (mark st addr).2.allocations + q'.length ≤
        2 * unmarkedCount st.allocations + q.length := by
  rcases mark_cases st addr with hc | ⟨i, hi, hm, hc⟩
  · exact ⟨q, by rw [hc]; exact hinv, by rw [hc]⟩
  · refine ⟨i :: q, ?_, ?_⟩
    · rw [hc]
      have hnotmem : i ∉ q := fun hmem => by
        have := hinv.2 i hmem
        rw [hm] at this
        exact absurd this (by simp)
      constructor
      · show ChainFrom (pushAlloc st i).allocations (some i) (i :: q)
        refine ChainFrom.cons (by simpa [pushAlloc] using hi) ?_
        have hgi : gi (pushAlloc st i).allocations i =
            { (gi st.allocations i) with
              marked := true
              next := st.referenceScanQueue } := by
          unfold gi pushAlloc
          exact getD_set_eq _ _ _ hi
        rw [hgi]
        exact ChainFrom_set_of_not_mem hinv.1 hnotmem
      · intro j hj
        rcases List.mem_cons.mp hj with hj1 | hj1
        · rw [hj1]
          show (gi (pushAlloc st i).allocations i).marked = true
          unfold gi pushAlloc
          rw [getD_set_eq _ _ _ hi]
        · show (gi (pushAlloc st i).allocations j).marked = true
          have hij : j ≠ i := fun hc' => by
            rw [hc'] at hj1
            have := hinv.2 i hj1
            rw [hm] at this
            exact absurd this (by simp)
          unfold gi pushAlloc
          rw [getD_set_ne _ _ _ hij]
          exact hinv.2 j hj1
    · rw [hc]
      have hgoal : unmarkedCount (pushAlloc st i).allocations + 1 =
          unmarkedCount st.allocations := by
        unfold pushAlloc
        exact unmarkedCount_set_marked st.allocations i _ hi hm rfl
      simp only [List.length_cons]
      omega

theorem scanList_queueInv (mem : Nat → Nat) :
    ∀ (addrs : List Nat) (st : GCState) (q : List Nat), QueueInv st q →
      ∃ q', QueueInv (addrs.foldl (scanStep mem) st) q' ∧
        2 * unmarkedCount (addrs.foldl (scanStep mem) st).allocations + q'.length ≤
          2 * unmarkedCount st.allocations + q.length := by
  intro addrs
  induction addrs with
  | nil => intro st q hinv; exact ⟨q, hinv, Nat.le_refl _⟩
  | cons p rest ih =>
    intro st q hinv
    obtain ⟨q1, hinv1, hle1⟩ := mark_queueInv hinv (mem p)
    obtain ⟨q2, hinv2, hle2⟩ := ih (scanStep mem st p) q1 hinv1
    exact ⟨q2, hinv2, Nat.le_trans hle2 hle1⟩

theorem ChainFrom_nil {l : List heapAllocation} {h : Option Nat}
    (hc : ChainFrom l h []) : h = none := by
  cases hc
  rfl

/-- C4: `finishMarking` terminates for every finite registry: with fuel at
least twice the number of unmarked records plus the queue length, the drain
loop empties the scan queue (each record is pushed at most once, because
`mark` only pushes unmarked records and marks them at the instant of push). -/
theorem finishMarking_terminates :
    ∀ (fuel : Nat) (st : GCState) (q : List Nat) (mem : Nat → Nat),
      ChainFrom st.allocations st.referenceScanQueue q →
      (∀ i ∈ q, (gi st.allocations i).marked = true) →
      2 * unmarkedCount st.allocations + q.length ≤ fuel →
      (finishMarkingFuel mem fuel st).referenceScanQueue = none := by
  intro fuel
  induction fuel with
  | zero =>
    intro st q mem hchain hmarked hle
    have hq : q = [] := by
      cases q with
      | nil => rfl
      | cons a rest => simp at hle
    subst hq
    exact ChainFrom_nil hchain
  | succ f ih =>
    intro st q mem hchain hmarked hle
    cases hq : st.referenceScanQueue with
    | none => simp [finishMarkingFuel, hq]
    | some i =>
      rw [hq] at hchain
      cases hchain with
      | @cons _ rest hi hrest =>
        have hstep : finishMarkingFuel mem (f + 1) st =
            finishMarkingFuel mem f
              (scan mem { st with referenceScanQueue := (gi st.allocations i).next }
                (gi st.allocations i).start (gi st.allocations i).end_) := by
          rw [finishMarkingFuel, hq]
        rw [hstep]
        have hinv1 : QueueInv
            { st with referenceScanQueue := (gi st.allocations i).next } rest := by
          constructor
          · exact hrest
          · intro j hj
            exact hmarked j (List.mem_cons_of_mem i hj)
        obtain ⟨q2, hinv2, hle2⟩ := scanList_queueInv mem
          (scanAddrs (gi st.allocations i).start (gi st.allocations i).end_)
          { st with referenceScanQueue := (gi st.allocations i).next } rest hinv1
        refine ih _ q2 mem hinv2.1 hinv2.2 ?_
        have halloc : ({ st with referenceScanQueue := (gi st.allocations i).next } :
            GCState).allocations = st.allocations := rfl
        rw [halloc] at hle2
        simp only [List.length_cons] at hle
        unfold scan
        omega

theorem finishMarking_terminates_witness :
    (finishMarkingFuel (fun _ => 0) 1
      { initialState with
        allocations := [⟨100, 120, true, none⟩]
        referenceScanQueue := some 0 }).referenceScanQueue = none :=
  finishMarking_terminates 1
    { initialState with
      allocations := [⟨100, 120, true, none⟩]
      referenceScanQueue := some 0 }
    [0] (fun _ => 0)
    (ChainFrom.cons (by decide) ChainFrom.nil)
    (by decide)
    (by decide)

/-! ## The allocation API (`gc_extalloc.go`: `alloc`, `free`, `needGC`,
`tryGC`, `expandHeap`, `fail`, `adjustHeapUsageLimit`,
`expandAllocationsIfNeeded`, `double`)

`alloc` is a loop; each iteration may run the collector (at most once per
call, guarded by the one-shot `gcRan` flag), grow the usage limit, expand
the registry backing buffer through the adapter, and finally request the
allocation itself.  The adapter is an oracle list of responses consumed
one per `extalloc` call (an exhausted oracle answers nil); the collector's
effect is a state-transformer parameter `gcFn`, instantiated with `GCrun`
below.  Every adapter call, collector run and limit growth is recorded in
an event trace, in order. -/

/-- `double` from the source: doubling with 0 mapped to 1. -/
def double (value : Nat) : Nat := if value = 0 then 1 else 2 * value

/-- `needGC(size)`: `gcTotalAlloc + uint64(size) > uint64(heapUsageLimit)`. -/
def needGC (st : GCState) (size : Nat) : Prop :=
  (st.gcTotalAlloc + size) % U64 > st.heapUsageLimit

instance (st : GCState) (size : Nat) : Decidable (needGC st size) :=
  inferInstanceAs (Decidable (_ < _))

/-- The doubling loop of `adjustHeapUsageLimit`:
`for heapUsageLimit != 0 && uintptr(gcTotalAlloc)+size > heapUsageLimit`
`{ heapUsageLimit <<= 1 }` with 32-bit wrapping shift.  Each pass doubles
the limit modulo `2^32`, so after at most 32 passes the limit is zero and
the loop stops; it is therefore written with fuel 33, and
`adjustLoop_main` below accounts for every way the loop can exit. -/
def adjustLoop (total size : Nat) : Nat → Nat → Nat
  | 0, limit => limit
  | f + 1, limit =>
    if limit ≠ 0 ∧ (total % U32 + size) % U32 > limit then
      adjustLoop total size f ((limit * 2) % U32)
    else limit

/-- `adjustHeapUsageLimit(size)`: double the limit until the allocation
fits, saturating at all-ones when the doubling wraps to zero. -/
def adjustHeapUsageLimit (total size limit : Nat) : Nat :=
  let l := adjustLoop total size 33 limit
  if l = 0 then U32 - 1 else l

theorem adjustLoop_main (total size : Nat) :
    ∀ f j limit, 2 ^ j ∣ limit → 32 ≤ f + j →
      (adjustLoop total size f limit = limit ∧
        (limit = 0 ∨ (total % U32 + size) % U32 ≤ limit)) ∨
      (adjustLoop total size f limit = 0 ∧ limit < U32) ∨
      (limit < (total % U32 + size) % U32 ∧
        (total % U32 + size) % U32 ≤ adjustLoop total size f limit) := by
  intro f
  induction f with
  | zero =>
    intro j limit hdvd hj
    have h32 : (2 : Nat) ^ 32 ∣ limit := dvd_trans (pow_dvd_pow 2 (by omega)) hdvd
    rcases Nat.eq_zero_or_pos limit with h0 | h0
    · exact Or.inl ⟨rfl, Or.inl h0⟩
    · have hge : U32 ≤ limit := by
        have := Nat.le_of_dvd h0 h32
        simpa [U32] using this
      have hcmp : (total % U32 + size) % U32 < U32 :=
        Nat.mod_lt _ (by norm_num [U32])
      exact Or.inl ⟨rfl, Or.inr (by omega)⟩
  | succ f ih =>
    intro j limit hdvd hj
    by_cases hcond : limit ≠ 0 ∧ (total % U32 + size) % U32 > limit
    · have hstep : adjustLoop total size (f + 1) limit =
          adjustLoop total size f ((limit * 2) % U32) := by
        rw [adjustLoop, if_pos hcond]
      have hcmplt : (total % U32 + size) % U32 < U32 :=
        Nat.mod_lt _ (by norm_num [U32])
      have hlt : limit < U32 := by omega
      have hjle : j ≤ 31 := by
        by_contra hgt
        have h32 : (2 : Nat) ^ 32 ∣ limit := dvd_trans (pow_dvd_pow 2 (by omega)) hdvd
        rcases Nat.eq_zero_or_pos limit with h0 | h0
        · exact hcond.1 h0
        · have := Nat.le_of_dvd h0 h32
          simp [U32] at hlt
          omega
      have hdvd' : 2 ^ (j + 1) ∣ (limit * 2) % U32 := by
        obtain ⟨c, hc⟩ := hdvd
        have hdd : 2 ^ (j + 1) ∣ limit * 2 := ⟨c, by rw [hc]; ring⟩
        have hdu : 2 ^ (j + 1) ∣ U32 := by
          have : U32 = 2 ^ 32 := rfl
          rw [this]
          exact pow_dvd_pow 2 (by omega)
        exact (Nat.dvd_mod_iff hdu).mpr hdd
      rcases ih (j + 1) ((limit * 2) % U32) hdvd' (by omega) with
        ⟨heq, hcase⟩ | ⟨heq, _⟩ | ⟨hlt', hle'⟩
      · rcases hcase with h0 | hfits
        · exact Or.inr (Or.inl ⟨by rw [hstep, heq, h0], hlt⟩)
        · exact Or.inr (Or.inr ⟨hcond.2, by rw [hstep]; omega⟩)
      · exact Or.inr (Or.inl ⟨by rw [hstep]; exact heq, hlt⟩)
      · exact Or.inr (Or.inr ⟨hcond.2, by rw [hstep]; exact hle'⟩)
    · exact Or.inl ⟨by rw [adjustLoop, if_neg hcond], by omega⟩

theorem adjust_ge (total size limit : Nat) :
    limit ≤ adjustHeapUsageLimit total size limit := by
  show limit ≤ if adjustLoop total size 33 limit = 0 then U32 - 1
    else adjustLoop total size 33 limit
  rcases adjustLoop_main total size 33 0 limit (one_dvd _) (by omega) with
    ⟨heq, hcase⟩ | ⟨heq, hlt⟩ | ⟨hlt, hle⟩
  · rw [heq]
    split_ifs with h0
    · omega
    · exact Nat.le_refl _
  · rw [heq]
    have hred : (if (0 : Nat) = 0 then U32 - 1 else 0) = U32 - 1 := by simp
    rw [hred]
    simp only [U32] at hlt ⊢
    omega
  · split_ifs with h0
    · rw [h0] at hle
      omega
    · omega

theorem adjust_fits (total size limit : Nat) :
    adjustHeapUsageLimit total size limit = U32 - 1 ∨
      (total % U32 + size) % U32 ≤ adjustHeapUsageLimit total size limit := by
  have hshape : adjustHeapUsageLimit total size limit =
      if adjustLoop total size 33 limit = 0 then U32 - 1
      else adjustLoop total size 33 limit := rfl
  rw [hshape]
  rcases adjustLoop_main total size 33 0 limit (one_dvd _) (by omega) with
    ⟨heq, hcase⟩ | ⟨heq, _⟩ | ⟨hlt, hle⟩
  · rcases hcase with h0 | hfits
    · rw [heq, h0]
      exact Or.inl rfl
    · rw [heq]
      split_ifs with h0
      · exact Or.inl rfl
      · exact Or.inr (by omega)
  · rw [heq]
    exact Or.inl (by simp)
  · split_ifs with h0
    · exact Or.inl rfl
    · exact Or.inr hle

/-- Events observable during an `alloc` call, in order: collector runs,
limit growth, and adapter calls. -/
inductive Event
  | gcE : Event
  | growE : Event
  | extallocE : Nat → Event
  | extfreeE : Nat → Event
  deriving Repr, DecidableEq

inductive AllocOutcome
  | ok : Nat → AllocOutcome
  | panicked : AllocOutcome
  | fuelOut : AllocOutcome
  deriving Repr, DecidableEq

structure AllocResult where
  outcome : AllocOutcome
  state : GCState
  events : List Event
  deriving Repr, DecidableEq

inductive ExpandOut
  | panicked : List Event → ExpandOut
  | proceed : GCState → List Event → Bool → ExpandOut

/-- `expandAllocationsIfNeeded`: when the registry is full, request a
buffer of doubled capacity from the adapter.  On a nil response with
`gcRan` set, panic (OutOfMemory); on a nil response with `gcRan` clear the
code runs `GC()`, sets the flag — and then FALLS THROUGH (there is no
retry in `gc_extalloc.go`): it installs the nil buffer as the new backing
store (`allocPtr = 0`), copies the records into it and frees the old
buffer.  On success the new buffer is installed and the old one freed.
The in-place copy through the slice header is represented by keeping the
record list. -/
def expandAllocationsIfNeeded (gcFn : GCState → GCState) (st : GCState)
    (resp : Option Nat) (gcRan : Bool) : ExpandOut :=
  if st.allocations.length = st.allocCap then
    let capSize := double st.allocCap * heapAllocationSize
    match resp with
    | none =>
      if gcRan then ExpandOut.panicked [Event.extallocE capSize]
      else
        let st1 := gcFn st
        let st2 := { st1 with allocCap := double st.allocCap, allocPtr := 0 }
        if st.allocCap ≠ 0 then
          ExpandOut.proceed { st2 with gcFrees := (st2.gcFrees + 1) % U64 }
            [Event.extallocE capSize, Event.gcE, Event.extfreeE st.allocPtr] true
        else
          ExpandOut.proceed st2 [Event.extallocE capSize, Event.gcE] true
    | some p =>
      let st2 := { st with allocCap := double st.allocCap, allocPtr := p }
      if st.allocCap ≠ 0 then
        ExpandOut.proceed { st2 with gcFrees := (st2.gcFrees + 1) % U64 }
          [Event.extallocE capSize, Event.extfreeE st.allocPtr] gcRan
      else
        ExpandOut.proceed st2 [Event.extallocE capSize] gcRan
  else ExpandOut.proceed st [] gcRan

/-- The allocation loop of `alloc` (everything after the zero-size and
overflow handling), with `gcRan` the one-shot flag.  Each `continue`
re-enters with one unit of fuel less; `fuelOut` marks exhausted fuel. -/
def allocLoop (gcFn : GCState → GCState) :
    Nat → List (Option Nat) → GCState → Nat → Bool → AllocResult
  | 0, _, st, _, _ => ⟨AllocOutcome.fuelOut, st, []⟩
  | f + 1, ext, st, size, gcRan =>
    if needGC st size then
      if gcRan then
        let st' := { st with heapUsageLimit :=
          adjustHeapUsageLimit st.gcTotalAlloc size st.heapUsageLimit }
        let r := allocLoop gcFn f ext st' size gcRan
        ⟨r.outcome, r.state, Event.growE :: r.events⟩
      else
        let r := allocLoop gcFn f ext (gcFn st) size true
        ⟨r.outcome, r.state, Event.gcE :: r.events⟩
    else
      let resp := if st.allocations.length = st.allocCap then ext.headD none else none
      let ext1 := if st.allocations.length = st.allocCap then ext.tail else ext
      match expandAllocationsIfNeeded gcFn st resp gcRan with
      | ExpandOut.panicked evs => ⟨AllocOutcome.panicked, st, evs⟩
      | ExpandOut.proceed st1 evs1 gcRan1 =>
        match ext1.headD none with
        | none =>
          if gcRan1 then
            ⟨AllocOutcome.panicked, st1, evs1 ++ [Event.extallocE size]⟩
          else
            let r := allocLoop gcFn f ext1.tail (gcFn st1) size true
            ⟨r.outcome, r.state,
              evs1 ++ [Event.extallocE size, Event.gcE] ++ r.events⟩
        | some p =>
          ⟨AllocOutcome.ok p,
            { st1 with
              allocations := st1.allocations ++ [⟨p, (p + size) % U32, false, none⟩]
              gcTotalAlloc := (st1.gcTotalAlloc + size) % U64 },
            evs1 ++ [Event.extallocE size]⟩

/-- `alloc(size)`: reentry guard, malloc counter, zero-size sentinel,
header padding, then the allocation loop. -/
def allocGo (gcFn : GCState → GCState) (fuel : Nat) (ext : List (Option Nat))
    (st : GCState) (size : Nat) : AllocResult :=
  if st.gcInProgress then ⟨AllocOutcome.panicked, st, []⟩
  else
    let st1 := { st with gcMallocs := (st.gcMallocs + 1) % U64 }
    if size = 0 then ⟨AllocOutcome.ok zeroSizedAlloc, st1, []⟩
    else allocLoop gcFn fuel ext st1 (size + align ptrSize) false

/-- `free(ptr)`: bump `gcFrees` and forward to `extfree`. -/
def freeGo (st : GCState) (addr : Nat) : GCState × List Event :=
  ({ st with gcFrees := (st.gcFrees + 1) % U64 }, [Event.extfreeE addr])

/-- C8: `alloc(0)` returns the fixed sentinel address, increments
`gcMallocs`, and changes nothing else: no registry record is appended and
`gcTotalAlloc` is untouched, so the sentinel never reaches the mark or
sweep phases. -/
theorem alloc_zero_sentinel (gcFn : GCState → GCState) (fuel : Nat)
    (ext : List (Option Nat)) (st : GCState) (h : st.gcInProgress = false) :
    allocGo gcFn fuel ext st 0 =
      ⟨AllocOutcome.ok zeroSizedAlloc,
        { st with gcMallocs := (st.gcMallocs + 1) % U64 }, []⟩ ∧
    (allocGo gcFn fuel ext st 0).state.allocations = st.allocations ∧
    (allocGo gcFn fuel ext st 0).state.gcTotalAlloc = st.gcTotalAlloc := by
  have hmain : allocGo gcFn fuel ext st 0 =
      ⟨AllocOutcome.ok zeroSizedAlloc,
        { st with gcMallocs := (st.gcMallocs + 1) % U64 }, []⟩ := by
    unfold allocGo
    rw [if_neg (by rw [h]; exact Bool.false_ne_true), if_pos rfl]
  exact ⟨hmain, by rw [hmain], by rw [hmain]⟩

theorem alloc_zero_sentinel_witness :
    initialState.gcInProgress = false ∧
    (allocGo (fun s => s) 3 [] initialState 0).outcome =
      AllocOutcome.ok zeroSizedAlloc :=
  ⟨rfl, by rw [(alloc_zero_sentinel (fun s => s) 3 [] initialState rfl).1]⟩

/-- C6 (refuting evaluation): the `gc.extalloc` tracing `alloc` has no
overflow guard.  From a state in which `gcTotalAlloc + effective_size`
wraps around (the guard condition of the `gc.custom` and leaking variants
holds), `alloc(8)` does not abort: it requests memory from the adapter
(the trace contains the `extalloc` call) and returns normally, leaving the
wrapped total. -/
theorem alloc_overflow_unguarded :
    ((U64 - 4) + (8 + align ptrSize)) % U64 < U64 - 4 ∧
    allocGo (fun s => s) 2 [some 5000]
      { initialState with
        gcTotalAlloc := U64 - 4
        heapUsageLimit := 1024
        allocCap := 4 } 8 =
      ⟨AllocOutcome.ok 5000,
        { initialState with
          gcMallocs := 1
          gcTotalAlloc := 8
          heapUsageLimit := 1024
          allocCap := 4
          allocations := [⟨5000, 5012, false, none⟩] },
        [Event.extallocE 12]⟩ := by
  constructor
  · decide
  · decide

/-- C7 (refuting evaluation): when the registry is full and the adapter
returns nil for the doubled buffer with `gcRan` clear, the tracing
`expandAllocationsIfNeeded` runs `GC()` and then falls through: it
installs the nil buffer (`allocPtr = 0`, capacity doubled), copies the
records into it, frees the old buffer, and execution continues in the
same iteration with the `extalloc(size)` request — it does not re-enter
the allocation loop without installing the buffer, as the spec requires
(the `gc.custom` variant has the `continue`; `gc.extalloc` does not). -/
theorem expand_installs_null_buffer :
    allocGo (fun s => s) 2 [none, some 5000]
      { initialState with
        heapUsageLimit := 1024
        allocCap := 2
        allocPtr := 777
        allocations := [⟨10, 20, false, none⟩, ⟨30, 40, false, none⟩] } 8 =
      ⟨AllocOutcome.ok 5000,
        { initialState with
          gcMallocs := 1
          gcFrees := 1
          gcTotalAlloc := 12
          heapUsageLimit := 1024
          allocCap := 4
          allocPtr := 0
          allocations := [⟨10, 20, false, none⟩, ⟨30, 40, false, none⟩,
            ⟨5000, 5012, false, none⟩] },
        [Event.extallocE 64, Event.gcE, Event.extfreeE 777, Event.extallocE 12]⟩ := by
  decide

/-! ## The one-shot collection policy of alloc (C5) -/

/-- Traces compatible with the `gcRan` one-shot flag: starting with flag
`g`, a collector event may occur only while the flag is clear (and sets
it), and a limit-growth event only while the flag is set. -/
def okTrace : Bool → List Event → Prop
  | _, [] => True
  | g, e :: rest =>
    match e with
    | Event.gcE => g = false ∧ okTrace true rest
    | Event.growE => g = true ∧ okTrace true rest
    | _ => okTrace g rest

/-- The value of the `gcRan` flag after a trace. -/
def traceEnd : Bool → List Event → Bool
  | g, [] => g
  | g, e :: rest =>
    match e with
    | Event.gcE => traceEnd true rest
    | _ => traceEnd g rest

theorem okTrace_append : ∀ (xs : List Event) (g : Bool) (ys : List Event),
    okTrace g xs → okTrace (traceEnd g xs) ys → okTrace g (xs ++ ys) := by
  intro xs
  induction xs with
  | nil => intro g ys _ hys; exact hys
  | cons e rest ih =>
    intro g ys hx hys
    cases e with
    | gcE =>
      obtain ⟨hg, hrest⟩ := hx
      exact ⟨hg, ih true ys hrest hys⟩
    | growE =>
      obtain ⟨hg, hrest⟩ := hx
      subst hg
      exact ⟨rfl, ih true ys hrest hys⟩
    | extallocE n => exact ih g ys hx hys
    | extfreeE n => exact ih g ys hx hys

theorem expand_okTrace (gcFn : GCState → GCState) (st : GCState)
    (resp : Option Nat) (g : Bool) :
    (∀ evs, expandAllocationsIfNeeded gcFn st resp g = ExpandOut.panicked evs →
      okTrace g evs) ∧
    (∀ st1 evs g1, expandAllocationsIfNeeded gcFn st resp g =
        ExpandOut.proceed st1 evs g1 →
      okTrace g evs ∧ traceEnd g evs = g1) := by
  constructor
  · intro evs hevs
    unfold expandAllocationsIfNeeded at hevs
    split at hevs
    · split at hevs
      · split at hevs
        · cases hevs
          simp [okTrace]
        · split at hevs <;> simp at hevs
      · split at hevs <;> simp at hevs
    · simp at hevs
  · intro st1 evs g1 hevs
    unfold expandAllocationsIfNeeded at hevs
    split at hevs
    · split at hevs
      · split at hevs
        · simp at hevs
        · rename_i hg
          have hgf : g = false := by
            revert hg
            cases g <;> simp
          subst hgf
          split at hevs
          · cases hevs
            exact ⟨by simp [okTrace], by simp [traceEnd]⟩
          · cases hevs
            exact ⟨by simp [okTrace], by simp [traceEnd]⟩
      · split at hevs
        · cases hevs
          exact ⟨by simp [okTrace], by simp [traceEnd]⟩
        · cases hevs
          exact ⟨by simp [okTrace], by simp [traceEnd]⟩
    · cases hevs
      exact ⟨trivial, by simp [traceEnd]⟩

theorem allocLoop_okTrace (gcFn : GCState → GCState) :
    ∀ (fuel : Nat) (ext : List (Option Nat)) (st : GCState) (size : Nat) (g : Bool),
      okTrace g (allocLoop gcFn fuel ext st size g).events := by
  intro fuel
  induction fuel with
  | zero => intro ext st size g; trivial
  | succ f ih =>
    intro ext st size g
    rw [allocLoop]
    by_cases hng : needGC st size
    · rw [if_pos hng]
      by_cases hg : g
      · subst hg
        simp only [if_pos rfl]
        exact ⟨rfl, ih ext _ size true⟩
      · have hgf : g = false := by simpa using hg
        subst hgf
        simp only [Bool.false_eq_true, if_false]
        exact ⟨rfl, ih ext _ size true⟩
    · rw [if_neg hng]
      simp only []
      set resp := if st.allocations.length = st.allocCap then ext.headD none else none
      set ext1 := if st.allocations.length = st.allocCap then ext.tail else ext
      cases hex : expandAllocationsIfNeeded gcFn st resp g with
      | panicked evs => exact (expand_okTrace gcFn st resp g).1 evs hex
      | proceed st1 evs1 g1 =>
        obtain ⟨hok1, hend1⟩ := (expand_okTrace gcFn st resp g).2 st1 evs1 g1 hex
        cases hresp : ext1.headD none with
        | none =>
          by_cases hg1 : g1
          · subst hg1
            simp only [if_pos rfl]
            refine okTrace_append evs1 g _ hok1 ?_
            rw [hend1]
            trivial
          · have hg1f : g1 = false := by simpa using hg1
            subst hg1f
            simp only [Bool.false_eq_true, if_false]
            rw [List.append_assoc]
            refine okTrace_append evs1 g _ hok1 ?_
            rw [hend1]
            exact okTrace_append [Event.extallocE size] false
              ([Event.gcE] ++ (allocLoop gcFn f ext1.tail (gcFn st1) size true).events)
              trivial ⟨rfl, ih ext1.tail (gcFn st1) size true⟩
        | some p =>
          refine okTrace_append evs1 g _ hok1 ?_
          rw [hend1]
          trivial

theorem okTrace_count_gc :
    ∀ (evs : List Event) (g : Bool), okTrace g evs →
      evs.count Event.gcE ≤ if g then 0 else 1 := by
  intro evs
  induction evs with
  | nil => intro g _; simp
  | cons e rest ih =>
    intro g hok
    cases e with
    | gcE =>
      obtain ⟨hg, hrest⟩ := hok
      subst hg
      have := ih true hrest
      simp at this
      simp [List.count_cons, this]
    | growE =>
      obtain ⟨hg, hrest⟩ := hok
      subst hg
      have := ih true hrest
      simp at this
      simp [List.count_cons, this]
    | extallocE n =>
      have := ih g hok
      simpa [List.count_cons] using this
    | extfreeE n =>
      have := ih g hok
      simpa [List.count_cons] using this

theorem okTrace_grow_after_gc :
    ∀ (evs : List Event) (g : Bool), okTrace g evs → g = false →
      ∀ k, k < evs.length → evs.getD k Event.gcE = Event.growE →
        ∃ j, j < k ∧ evs.getD j Event.gcE = Event.gcE := by
  intro evs
  induction evs with
  | nil => intro g _ _ k hk; simp at hk
  | cons e rest ih =>
    intro g hok hg k hk hgrow
    cases e with
    | gcE =>
      cases k with
      | zero => simp at hgrow
      | succ k' =>
        exact ⟨0, by omega, rfl⟩
    | growE =>
      obtain ⟨hgt, _⟩ := hok
      rw [hg] at hgt
      exact absurd hgt (by simp)
    | extallocE n =>
      cases k with
      | zero => simp at hgrow
      | succ k' =>
        obtain ⟨j, hj, hjev⟩ := ih g hok hg k' (by simpa using hk) (by simpa using hgrow)
        exact ⟨j + 1, by omega, by simpa using hjev⟩
    | extfreeE n =>
      cases k with
      | zero => simp at hgrow
      | succ k' =>
        obtain ⟨j, hj, hjev⟩ := ih g hok hg k' (by simpa using hk) (by simpa using hgrow)
        exact ⟨j + 1, by omega, by simpa using hjev⟩

/-- C5: within a single `alloc` call, `GC()` runs at most once, and every
growth of `heapUsageLimit` is preceded by a `GC()` run earlier in the same
call: collect once, then grow; never grow without first collecting; never
collect twice. -/
theorem alloc_collect_once_then_grow (gcFn : GCState → GCState) (fuel : Nat)
    (ext : List (Option Nat)) (st : GCState) (size : Nat) :
    (allocGo gcFn fuel ext st size).events.count Event.gcE ≤ 1 ∧
    (∀ k, k < (allocGo gcFn fuel ext st size).events.length →
      (allocGo gcFn fuel ext st size).events.getD k Event.gcE = Event.growE →
      ∃ j, j < k ∧
        (allocGo gcFn fuel ext st size).events.getD j Event.gcE = Event.gcE) := by
  have hok : okTrace false (allocGo gcFn fuel ext st size).events := by
    unfold allocGo
    by_cases hip : st.gcInProgress
    · rw [if_pos hip]; trivial
    · rw [if_neg hip]
      by_cases hz : size = 0
      · rw [if_pos hz]; trivial
      · rw [if_neg hz]
        exact allocLoop_okTrace gcFn fuel ext _ _ false
  constructor
  · have := okTrace_count_gc _ false hok
    simpa using this
  · exact okTrace_grow_after_gc _ false hok rfl

/-! ## GC() and the heap-usage limit across operations (C10) -/

/-- `GC()`: reentry guard, empty-registry fast path, prepare, root
marking, drain, sweep.  `markStack`/`findGlobals` live outside the
collector sources; modelled from the spec, they enumerate root ranges and
forward each to the scanner, so they appear here as an explicit list of
`(lo, hi)` ranges.  The drain is run with fuel `2·length + 1`, which
`finishMarking_terminates` proves sufficient.  Returns `none` on the
ReentrantCollection panic, otherwise the new state and the freed
addresses. -/
def GCrun (roots : List (Nat × Nat)) (mem : Nat → Nat) (st : GCState) :
    Option (GCState × List Nat) :=
  if st.gcInProgress then none
  else
    let st1 := { st with gcInProgress := true }
    if st1.allocations.length = 0 then some ({ st1 with gcInProgress := false }, [])
    else
      let st2 := prepareGC st1
      let st3 := st2
      let st4 := roots.foldl (fun s r => scan mem s r.1 r.2) st3
      let st5 := finishMarkingFuel mem (2 * st4.allocations.length + 1) st4
      let r := sweep st5
      some ({ r.1 with gcInProgress := false }, r.2)

/-- The collector as a plain state transformer (panic keeps the state). -/
def gcFnOf (roots : List (Nat × Nat)) (mem : Nat → Nat) : GCState → GCState :=
  fun st => ((GCrun roots mem st).getD (st, [])).1

/-- One externally visible operation on the collector state. -/
inductive OpCall
  | allocC : Nat → Nat → List (Option Nat) → OpCall
  | freeC : Nat → OpCall
  | gcC : OpCall

def runOp (roots : List (Nat × Nat)) (mem : Nat → Nat) (st : GCState) :
    OpCall → GCState
  | OpCall.allocC size fuel ext => (allocGo (gcFnOf roots mem) fuel ext st size).state
  | OpCall.freeC addr => (freeGo st addr).1
  | OpCall.gcC => gcFnOf roots mem st

/-- A sequence of `alloc`/`free`/`GC` calls. -/
def runOps (roots : List (Nat × Nat)) (mem : Nat → Nat) (st : GCState)
    (ops : List OpCall) : GCState :=
  ops.foldl (runOp roots mem) st

theorem mark_limit (st : GCState) (addr : Nat) :
    (mark st addr).2.heapUsageLimit = st.heapUsageLimit := by
  rcases mark_cases st addr with hc | ⟨i, _, _, hc⟩
  · rw [hc]
  · rw [hc]; rfl

theorem scan_limit (mem : Nat → Nat) (addrs : List Nat) :
    ∀ st : GCState, (addrs.foldl (scanStep mem) st).heapUsageLimit =
      st.heapUsageLimit := by
  induction addrs with
  | nil => intro st; rfl
  | cons p rest ih =>
    intro st
    rw [List.foldl_cons, ih]
    exact mark_limit st (mem p)

theorem finishMarkingFuel_limit (mem : Nat → Nat) :
    ∀ (fuel : Nat) (st : GCState),
      (finishMarkingFuel mem fuel st).heapUsageLimit = st.heapUsageLimit := by
  intro fuel
  induction fuel with
  | zero => intro st; rfl
  | succ f ih =>
    intro st
    cases hq : st.referenceScanQueue with
    | none => simp [finishMarkingFuel, hq]
    | some i =>
      have hstep : finishMarkingFuel mem (f + 1) st =
          finishMarkingFuel mem f
            (scan mem { st with referenceScanQueue := (gi st.allocations i).next }
              (gi st.allocations i).start (gi st.allocations i).end_) := by
        rw [finishMarkingFuel, hq]
      rw [hstep, ih]
      exact scan_limit mem _ _

theorem GCrun_limit (roots : List (Nat × Nat)) (mem : Nat → Nat) (st : GCState) :
    (gcFnOf roots mem st).heapUsageLimit = st.heapUsageLimit := by
  unfold gcFnOf GCrun
  split
  · rfl
  · dsimp only
    split
    · rfl
    · have hsweep : ∀ s : GCState, (sweep s).1.heapUsageLimit = s.heapUsageLimit :=
        fun s => rfl
      rw [hsweep, finishMarkingFuel_limit]
      have hroots : ∀ (rs : List (Nat × Nat)) (s : GCState),
          (rs.foldl (fun s r => scan mem s r.1 r.2) s).heapUsageLimit =
            s.heapUsageLimit := by
        intro rs
        induction rs with
        | nil => intro s; rfl
        | cons r rest ih =>
          intro s
          rw [List.foldl_cons, ih]
          exact scan_limit mem _ _
      rw [hroots]
      rfl

theorem expand_limit (gcFn : GCState → GCState)
    (hgc : ∀ s, (gcFn s).heapUsageLimit = s.heapUsageLimit)
    (st : GCState) (resp : Option Nat) (g : Bool) :
    ∀ st1 evs g1, expandAllocationsIfNeeded gcFn st resp g =
        ExpandOut.proceed st1 evs g1 →
      st1.heapUsageLimit = st.heapUsageLimit := by
  intro st1 evs g1 hex
  unfold expandAllocationsIfNeeded at hex
  split at hex
  · split at hex
    · split at hex
      · simp at hex
      · split at hex
        · cases hex; exact hgc st
        · cases hex; exact hgc st
    · split at hex
      · cases hex; rfl
      · cases hex; rfl
  · cases hex; rfl

theorem allocLoop_limit_mono (roots : List (Nat × Nat)) (mem : Nat → Nat) :
    ∀ (fuel : Nat) (ext : List (Option Nat)) (st : GCState) (size : Nat) (g : Bool),
      st.heapUsageLimit ≤
        (allocLoop (gcFnOf roots mem) fuel ext st size g).state.heapUsageLimit := by
  intro fuel
  induction fuel with
  | zero => intro ext st size g; exact Nat.le_refl _
  | succ f ih =>
    intro ext st size g
    rw [allocLoop]
    by_cases hng : needGC st size
    · rw [if_pos hng]
      by_cases hg : g
      · subst hg
        refine Nat.le_trans (adjust_ge st.gcTotalAlloc size st.heapUsageLimit) ?_
        exact ih ext
          { st with heapUsageLimit := adjustHeapUsageLimit st.gcTotalAlloc size st.heapUsageLimit }
          size true
      · have hgf : g = false := by simpa using hg
        subst hgf
        have h := ih ext (gcFnOf roots mem st) size true
        rw [GCrun_limit roots mem st] at h
        exact h
    · rw [if_neg hng]
      simp only []
      set resp := if st.allocations.length = st.allocCap then ext.headD none else none
      set ext1 := if st.allocations.length = st.allocCap then ext.tail else ext
      cases hex : expandAllocationsIfNeeded (gcFnOf roots mem) st resp g with
      | panicked evs => exact Nat.le_refl _
      | proceed st1 evs1 g1 =>
        have hlim1 : st1.heapUsageLimit = st.heapUsageLimit :=
          expand_limit (gcFnOf roots mem) (fun s => GCrun_limit roots mem s)
            st resp g st1 evs1 g1 hex
        cases hresp : ext1.headD none with
        | none =>
          by_cases hg1 : g1
          · subst hg1
            show st.heapUsageLimit ≤ st1.heapUsageLimit
            rw [hlim1]
          · have hg1f : g1 = false := by simpa using hg1
            subst hg1f
            have h := ih ext1.tail (gcFnOf roots mem st1) size true
            rw [GCrun_limit roots mem st1, hlim1] at h
            exact h
        | some p =>
          show st.heapUsageLimit ≤ st1.heapUsageLimit
          rw [hlim1]

/-- C10: across every sequence of `alloc`, `free` and `GC` calls the
heap-usage limit observed at operation boundaries never decreases, and the
only code that modifies it — `adjustHeapUsageLimit` — only ever doubles it
until the (wrapped 32-bit) requested total fits, saturating at the
all-ones `uintptr` when the doubling wraps to zero. -/
theorem heapUsageLimit_monotone (roots : List (Nat × Nat)) (mem : Nat → Nat) :
    (∀ (ops : List OpCall) (st : GCState),
      st.heapUsageLimit ≤ (runOps roots mem st ops).heapUsageLimit) ∧
    (∀ total size limit,
      limit ≤ adjustHeapUsageLimit total size limit ∧
      (adjustHeapUsageLimit total size limit = U32 - 1 ∨
        (total % U32 + size) % U32 ≤ adjustHeapUsageLimit total size limit)) := by
  constructor
  · intro ops
    induction ops with
    | nil => intro st; exact Nat.le_refl _
    | cons op rest ih =>
      intro st
      have hstep : st.heapUsageLimit ≤ (runOp roots mem st op).heapUsageLimit := by
        cases op with
        | allocC size fuel ext =>
          show st.heapUsageLimit ≤
            (allocGo (gcFnOf roots mem) fuel ext st size).state.heapUsageLimit
          unfold allocGo
          split
          · exact Nat.le_refl _
          · dsimp only
            split
            · exact Nat.le_refl _
            · exact allocLoop_limit_mono roots mem fuel ext
                { st with gcMallocs := (st.gcMallocs + 1) % U64 }
                (size + align ptrSize) false
        | freeC addr => exact Nat.le_refl _
        | gcC =>
          show st.heapUsageLimit ≤ (gcFnOf roots mem st).heapUsageLimit
          rw [GCrun_limit roots mem st]
      exact Nat.le_trans hstep (ih (runOp roots mem st op))
  · intro total size limit
    exact ⟨adjust_ge total size limit, adjust_fits total size limit⟩

/-! ## ReadMemStats and the leaking variant
(`gc_extalloc.go` / `gc_extalloc_leaking.go`)

The stat fields that depend only on collector state (`Sys`, which reads
the wasm memory globals `heapStart`/`heapEnd`, is outside this model). -/

structure MemStats where
  heapInuse : Nat
  totalAlloc : Nat
  mallocs : Nat
  frees : Nat
  heapIdle : Nat
  heapReleased : Nat
  gcSys : Nat
  heapSys : Nat
  deriving Repr, DecidableEq

/-- `ReadMemStats` of the tracing variant. -/
def readMemStats (st : GCState) : MemStats :=
  { heapIdle := 0
    heapInuse := st.gcTotalAlloc
    heapReleased := 0
    heapSys := st.gcTotalAlloc + 0
    gcSys := 0
    totalAlloc := st.gcTotalAlloc
    mallocs := st.gcMallocs
    frees := st.gcFrees }

/-- The state of the leaking variant (`gc_extalloc_leaking.go`): only the
malloc counter and the running total; `gcFrees` is the constant 0.  Note
that its `alloc` never increments `gcMallocs`. -/
structure LeakState where
  gcMallocs : Nat
  gcTotalAlloc : Nat
  deriving Repr, DecidableEq

inductive LeakResult
  | ok : Nat → LeakState → LeakResult
  | aborted : LeakResult
  | panicked : LeakResult
  deriving Repr, DecidableEq

/-- `alloc` of the leaking variant: sentinel for size 0, header padding,
overflow guard (`abort`), a single adapter request (`gcAllocPanic` on
nil), and the total update.  `gcMallocs` is not touched. -/
def allocLeaking (ext : Option Nat) (st : LeakState) (size : Nat) : LeakResult :=
  if size = 0 then LeakResult.ok zeroSizedAlloc st
  else
    let size := size + align ptrSize
    if (st.gcTotalAlloc + size) % U64 < st.gcTotalAlloc then LeakResult.aborted
    else
      match ext with
      | none => LeakResult.panicked
      | some p =>
        LeakResult.ok p { st with gcTotalAlloc := (st.gcTotalAlloc + size) % U64 }

/-- `ReadMemStats` of the leaking variant (`Frees` is the constant 0). -/
def readMemStatsLeaking (st : LeakState) : MemStats :=
  { heapIdle := 0
    heapInuse := st.gcTotalAlloc
    heapReleased := 0
    heapSys := st.gcTotalAlloc + 0
    gcSys := 0
    totalAlloc := st.gcTotalAlloc
    mallocs := st.gcMallocs
    frees := 0 }

/-- C9 (refuting evaluation): one identical `alloc(1)` call served
identically by the adapter (user request answered with address 1000; the
tracing variant's registry-buffer request answered with 2000).  Both
variants return 1000 and report the same `HeapInuse`, but the leaking
variant's `alloc` never increments `gcMallocs`, so `Mallocs` reads 1 in
the tracing variant and 0 in the leaking variant — the variants do not
agree on `Mallocs`. -/
theorem variants_disagree_on_mallocs :
    (allocGo (fun s => s) 2 [some 2000, some 1000] initialState 1).outcome =
      AllocOutcome.ok 1000 ∧
    allocLeaking (some 1000) ⟨0, 0⟩ 1 = LeakResult.ok 1000 ⟨0, 5⟩ ∧
    (readMemStats
      (allocGo (fun s => s) 2 [some 2000, some 1000] initialState 1).state).heapInuse =
      (readMemStatsLeaking ⟨0, 5⟩).heapInuse ∧
    (readMemStats
      (allocGo (fun s => s) 2 [some 2000, some 1000] initialState 1).state).mallocs = 1 ∧
    (readMemStatsLeaking ⟨0, 5⟩).mallocs = 0 := by
  refine ⟨?_, ?_, ?_, ?_, ?_⟩ <;> decide

end GCExtalloc
